import Mathlib

/-!
Verification of the threejs-demo 3D-asset import pipeline against its
natural-language specification.  Each section shallowly embeds one part of
the TypeScript source (FBX loader, FBX geometry/animation parsers, glTF
parser) as Lean definitions and proves the spec's testable properties
about them.  JavaScript numbers are modelled exactly: integers as `Int`
or `Nat` (with explicit 32-bit wrapping where JS bitwise operators
apply), and floating-point data as `Rat` (or `Real` where the source
uses trigonometry), since the claims under study only depend on ordering
and exact arithmetic of the values involved.
-/

/-! ### Connection graph resolver (`FBXTreeParser.parseConnections`, unnamed/part_007)

The source folds the flat `(fromID, toID, relationship)` triples of the
`Connections` block into a JS `Map` from ID to `{parents, children}`,
pushing `{ID: toID, relationship}` onto `parents` of `fromID` and
`{ID: fromID, relationship}` onto `children` of `toID`.  The JS `Map` is
modelled as an insertion-ordered association list; `relationship` is
optional because a raw connection row may lack the third column. -/

namespace FBXConn

structure Relationship where
ID : Int
relationship : Option String
deriving DecidableEq, Repr

structure ConnEntry where
parents : List Relationship
children : List Relationship
deriving DecidableEq, Repr

/-- A raw connection row: `(fromID, toID, relationship)`. -/
abbrev RawConnection := Int × Int × Option String

abbrev ConnMap := List (Int × ConnEntry)

def mget (m : ConnMap) (k : Int) : Option ConnEntry :=
(m.find? (fun p => p.1 == k)).map Prod.snd

def mhas (m : ConnMap) (k : Int) : Bool :=
(mget m k).isSome

/-- Update the entry stored under key `k` (first occurrence), as mutation
of `connectionMap.get(k)` does in JS. -/
def mupd (m : ConnMap) (k : Int) (f : ConnEntry → ConnEntry) : ConnMap :=
match m with
| [] => []
| (k', v) :: t => if k' == k then (k', f v) :: t else (k', v) :: mupd t k f

/-- One step of the `rawConnections.forEach` body in `parseConnections`. -/
def addConnection (m : ConnMap) (c : RawConnection) : ConnMap :=
let fromID := c.1
let toID := c.2.1
let relationship := c.2.2
let m1 := if mhas m fromID then m else m ++ [(fromID, ⟨[], []⟩)]
let m2 := mupd m1 fromID (fun e => { e with parents := e.parents ++ [⟨toID, relationship⟩] })
let m3 := if mhas m2 toID then m2 else m2 ++ [(toID, ⟨[], []⟩)]
mupd m3 toID (fun e => { e with children := e.children ++ [⟨fromID, relationship⟩] })

/-- `FBXTreeParser.parseConnections`, for a present `Connections` block. -/
def parseConnections (raw : List RawConnection) : ConnMap :=
raw.foldl addConnection []

/-- The `parents` list of `map.get(k)` (empty when the key is absent). -/
def parentsOf (m : ConnMap) (k : Int) : List Relationship :=
(mget m k).elim [] ConnEntry.parents

/-- The `children` list of `map.get(k)` (empty when the key is absent). -/
def childrenOf (m : ConnMap) (k : Int) : List Relationship :=
(mget m k).elim [] ConnEntry.children

theorem mget_cons (k₀ : Int) (v₀ : ConnEntry) (t : ConnMap) (k' : Int) :
    mget ((k₀, v₀) :: t) k' = if k₀ = k' then some v₀ else mget t k' := by
by_cases h : k₀ = k'
· rw [if_pos h]
  unfold mget
  rw [List.find?_cons_of_pos _ (by simpa using h)]
  rfl
· rw [if_neg h]
  unfold mget
  rw [List.find?_cons_of_neg _ (by simpa using h)]

theorem mget_nil (k' : Int) : mget [] k' = none := rfl

theorem mget_mupd (m : ConnMap) (k k' : Int) (f : ConnEntry → ConnEntry) :
    mget (mupd m k f) k' =
      if k = k' then (mget m k).map f else mget m k' := by
induction m with
| nil => simp [mget_nil, mupd]
| cons hd tl ih =>
  obtain ⟨k₀, v₀⟩ := hd
  by_cases h0 : k₀ = k
  · subst h0
    by_cases h1 : k₀ = k'
    · subst h1
      simp [mupd, mget_cons]
    · simp [mupd, mget_cons, h1, Ne.symm h1]
  · have hne : (k₀ == k) = false := by simpa using h0
    by_cases h1 : k₀ = k'
    · subst h1
      have : ¬ k = k₀ := fun h => h0 h.symm
      simp [mupd, hne, mget_cons, this]
    · simp [mupd, hne, mget_cons, h0, h1, ih]

theorem mget_append_new (m : ConnMap) (k k' : Int) (e : ConnEntry) :
    mget (m ++ [(k, e)]) k' =
      ((mget m k').orElse (fun _ => if k = k' then some e else none)) := by
induction m with
| nil => simp [mget_nil, mget_cons, Option.orElse]
| cons hd tl ih =>
  obtain ⟨k₀, v₀⟩ := hd
  by_cases h1 : k₀ = k'
  · simp [List.cons_append, mget_cons, h1, Option.orElse]
  · simpa [List.cons_append, mget_cons, h1] using ih

theorem parentsOf_append_empty (m : ConnMap) (k y : Int) :
    parentsOf (m ++ [(k, ⟨[], []⟩)]) y = parentsOf m y := by
unfold parentsOf
rw [mget_append_new]
cases hy : mget m y with
| some e => simp [Option.orElse]
| none => by_cases hf : k = y <;> simp [Option.orElse, hf]

theorem childrenOf_append_empty (m : ConnMap) (k y : Int) :
    childrenOf (m ++ [(k, ⟨[], []⟩)]) y = childrenOf m y := by
unfold childrenOf
rw [mget_append_new]
cases hy : mget m y with
| some e => simp [Option.orElse]
| none => by_cases hf : k = y <;> simp [Option.orElse, hf]

theorem parentsOf_ensure (m : ConnMap) (k y : Int) :
    parentsOf (if mhas m k then m else m ++ [(k, ⟨[], []⟩)]) y = parentsOf m y := by
by_cases h : mhas m k
· simp [h]
· simp [h, parentsOf_append_empty]

theorem childrenOf_ensure (m : ConnMap) (k y : Int) :
    childrenOf (if mhas m k then m else m ++ [(k, ⟨[], []⟩)]) y = childrenOf m y := by
by_cases h : mhas m k
· simp [h]
· simp [h, childrenOf_append_empty]

theorem mget_ensure_isSome (m : ConnMap) (k : Int) :
    (mget (if mhas m k then m else m ++ [(k, ⟨[], []⟩)]) k).isSome := by
by_cases h : mhas m k
· rw [if_pos h]
  simpa [mhas] using h
· rw [if_neg h, mget_append_new]
  cases hy : mget m k <;> simp [Option.orElse]

theorem mhas_mupd (m : ConnMap) (k k' : Int) (f : ConnEntry → ConnEntry) :
    mhas (mupd m k f) k' = mhas m k' := by
unfold mhas
rw [mget_mupd]
by_cases h : k = k'
· subst h; cases hy : mget m k <;> simp
· simp [h]

theorem parentsOf_mupd_push (m : ConnMap) (k y : Int) (pr : Relationship)
    (hk : (mget m k).isSome) :
    parentsOf (mupd m k (fun e => { e with parents := e.parents ++ [pr] })) y =
      parentsOf m y ++ (if k = y then [pr] else []) := by
unfold parentsOf
rw [mget_mupd]
by_cases h : k = y
· subst h
  simp only [if_pos rfl]
  cases hy : mget m k with
  | some e => simp
  | none => rw [hy] at hk; simp at hk
· simp [h]

theorem parentsOf_mupd_child (m : ConnMap) (k y : Int) (cr : Relationship) :
    parentsOf (mupd m k (fun e => { e with children := e.children ++ [cr] })) y =
      parentsOf m y := by
unfold parentsOf
rw [mget_mupd]
by_cases h : k = y
· subst h; cases hy : mget m k <;> simp
· simp [h]

theorem childrenOf_mupd_push (m : ConnMap) (k y : Int) (cr : Relationship)
    (hk : (mget m k).isSome) :
    childrenOf (mupd m k (fun e => { e with children := e.children ++ [cr] })) y =
      childrenOf m y ++ (if k = y then [cr] else []) := by
unfold childrenOf
rw [mget_mupd]
by_cases h : k = y
· subst h
  simp only [if_pos rfl]
  cases hy : mget m k with
  | some e => simp
  | none => rw [hy] at hk; simp at hk
· simp [h]

theorem childrenOf_mupd_parent (m : ConnMap) (k y : Int) (pr : Relationship) :
    childrenOf (mupd m k (fun e => { e with parents := e.parents ++ [pr] })) y =
      childrenOf m y := by
unfold childrenOf
rw [mget_mupd]
by_cases h : k = y
· subst h; cases hy : mget m k <;> simp
· simp [h]

theorem parentsOf_addConnection (m : ConnMap) (c : RawConnection) (x : Int) :
    parentsOf (addConnection m c) x =
      parentsOf m x ++ (if c.1 = x then [⟨c.2.1, c.2.2⟩] else []) := by
obtain ⟨f, t, r⟩ := c
unfold addConnection
rw [parentsOf_mupd_child, parentsOf_ensure, parentsOf_mupd_push, parentsOf_ensure]
exact mget_ensure_isSome m f

theorem childrenOf_addConnection (m : ConnMap) (c : RawConnection) (x : Int) :
    childrenOf (addConnection m c) x =
      childrenOf m x ++ (if c.2.1 = x then [⟨c.1, c.2.2⟩] else []) := by
obtain ⟨f, t, r⟩ := c
unfold addConnection
rw [childrenOf_mupd_push, childrenOf_ensure, childrenOf_mupd_parent, childrenOf_ensure]
exact mget_ensure_isSome _ t

theorem parentsOf_foldl (l : List RawConnection) (m : ConnMap) (x : Int) :
    parentsOf (l.foldl addConnection m) x =
      parentsOf m x ++ (l.filter (fun c => c.1 = x)).map (fun c => ⟨c.2.1, c.2.2⟩) := by
induction l generalizing m with
| nil => simp
| cons c t ih =>
  simp only [List.foldl_cons, ih, parentsOf_addConnection, List.filter_cons]
  by_cases h : c.1 = x
  · simp [h, List.append_assoc]
  · simp [h]

theorem childrenOf_foldl (l : List RawConnection) (m : ConnMap) (x : Int) :
    childrenOf (l.foldl addConnection m) x =
      childrenOf m x ++ (l.filter (fun c => c.2.1 = x)).map (fun c => ⟨c.1, c.2.2⟩) := by
induction l generalizing m with
| nil => simp
| cons c t ih =>
  simp only [List.foldl_cons, ih, childrenOf_addConnection, List.filter_cons]
  by_cases h : c.2.1 = x
  · simp [h, List.append_assoc]
  · simp [h]

/-- **C1.** `parseConnections` builds a symmetric bidirectional map: an entry
with ID `x` is in the `children` list of `map.get(y)` iff an entry with ID
`y` is in the `parents` list of `map.get(x)` (both are equivalent to a raw
triple `(x, y, r)` being present); moreover each triple `(x, y, r)`
contributes exactly one `parents` entry under its `fromID` and exactly one
`children` entry under its `toID` (entry counts equal the triple's
multiplicity in the input), so every edge appears exactly twice. -/
theorem parseConnections_symmetric_and_double (raw : List RawConnection) (x y : Int) :
    ((∃ r, (⟨x, r⟩ : Relationship) ∈ childrenOf (parseConnections raw) y) ↔
      (∃ r, (⟨y, r⟩ : Relationship) ∈ parentsOf (parseConnections raw) x)) ∧
    (∀ r : Option String,
      (parentsOf (parseConnections raw) x).count ⟨y, r⟩ = raw.count (x, y, r) ∧
      (childrenOf (parseConnections raw) y).count ⟨x, r⟩ = raw.count (x, y, r)) := by
have hp : parentsOf (parseConnections raw) x =
    (raw.filter (fun c => c.1 = x)).map (fun c => ⟨c.2.1, c.2.2⟩) := by
  simpa [parentsOf, mget] using parentsOf_foldl raw [] x
have hc : childrenOf (parseConnections raw) y =
    (raw.filter (fun c => c.2.1 = y)).map (fun c => ⟨c.1, c.2.2⟩) := by
  simpa [childrenOf, mget] using childrenOf_foldl raw [] y
constructor
· constructor
  · rintro ⟨r, hr⟩
    refine ⟨r, ?_⟩
    rw [hc] at hr
    rw [hp]
    simp only [List.mem_map, List.mem_filter] at hr ⊢
    obtain ⟨c, ⟨hcm, hcy⟩, hce⟩ := hr
    refine ⟨c, ⟨hcm, ?_⟩, ?_⟩
    · have : c.1 = x := by
        have := congrArg Relationship.ID hce
        simpa using this
      simp [this]
    · have h1 : c.2.1 = y := by simpa using hcy
      have h2 : c.2.2 = r := by
        have := congrArg Relationship.relationship hce
        simpa using this
      simp [h1, h2]
  · rintro ⟨r, hr⟩
    refine ⟨r, ?_⟩
    rw [hp] at hr
    rw [hc]
    simp only [List.mem_map, List.mem_filter] at hr ⊢
    obtain ⟨c, ⟨hcm, hcx⟩, hce⟩ := hr
    refine ⟨c, ⟨hcm, ?_⟩, ?_⟩
    · have : c.2.1 = y := by
        have := congrArg Relationship.ID hce
        simpa using this
      simp [this]
    · have h1 : c.1 = x := by simpa using hcx
      have h2 : c.2.2 = r := by
        have := congrArg Relationship.relationship hce
        simpa using this
      simp [h1, h2]
· intro r
  constructor
  · rw [hp]
    rw [List.count_eq_countP, List.count_eq_countP]
    rw [List.countP_map, List.countP_filter]
    apply List.countP_congr
    rintro ⟨cf, ct, cr⟩ _
    simp only [Function.comp, beq_iff_eq, Bool.and_eq_true, decide_eq_true_eq,
      Relationship.mk.injEq, Prod.mk.injEq]
    constructor
    · rintro ⟨⟨h1, h2⟩, h3⟩; exact ⟨h3, h1, h2⟩
    · rintro ⟨h3, h1, h2⟩; exact ⟨⟨h1, h2⟩, h3⟩
  · rw [hc]
    rw [List.count_eq_countP, List.count_eq_countP]
    rw [List.countP_map, List.countP_filter]
    apply List.countP_congr
    rintro ⟨cf, ct, cr⟩ _
    simp only [Function.comp, beq_iff_eq, Bool.and_eq_true, decide_eq_true_eq,
      Relationship.mk.injEq, Prod.mk.injEq]
    constructor
    · rintro ⟨⟨h1, h2⟩, h3⟩; exact ⟨h1, h3, h2⟩
    · rintro ⟨h1, h3, h2⟩; exact ⟨⟨h1, h2⟩, h3⟩

end FBXConn

/-! ### FBX binary reader (`BinaryReader`, src/loaders/fbx/FBX-loader.ts)

`BinaryReader.getInt64` emulates a 64-bit read with two `getUint32` reads
and manual two's-complement negation, written with JS bitwise operators.
JS `&` and `~` coerce their operands with `ToInt32` and yield a *signed*
32-bit result, which the model reproduces exactly (`toInt32`, `jsAnd`,
`jsNot`): this is essential, since `~low & 0xffffffff` in JS yields a
negative number whenever `low < 2^31`, not the 32-bit pattern the code's
`low === 0xffffffff` comparison expects. -/

namespace FBXReader

/-- JS `ToUint32` for an integral number. -/
def toUint32 (x : Int) : Int :=
x % 4294967296

/-- JS `ToInt32` for an integral number. -/
def toInt32 (x : Int) : Int :=
let m := x % 4294967296
if m < 2147483648 then m else m - 4294967296

/-- The JS `&` operator on integral numbers: `ToInt32` both sides, AND the
32-bit patterns, read the result as signed. -/
def jsAnd (x y : Int) : Int :=
toInt32 (Nat.land (toUint32 x).toNat (toUint32 y).toNat)

/-- The JS `~` operator on integral numbers: complement of the 32-bit
pattern of `ToInt32 x`, read as signed. -/
def jsNot (x : Int) : Int :=
toInt32 ((4294967295 : Nat) - (toUint32 x).toNat)

/-- Cursor-based reader over a byte buffer (`BinaryReader` in the source).
Bytes are `Nat`s below 256; `littleEndian` defaults to `true` at the only
construction site (`new BinaryReader(buffer)`). -/
structure BinaryReader where
buffer : List Nat
offset : Nat
littleEndian : Bool

def byteAt (r : BinaryReader) (i : Nat) : Int :=
(r.buffer.getD (r.offset + i) 0 : Int)

/-- `BinaryReader.getUint32`: a 4-byte read via `DataView.getUint32`. -/
def getUint32 (r : BinaryReader) : Int × BinaryReader :=
let v := if r.littleEndian
  then byteAt r 0 + 256 * byteAt r 1 + 65536 * byteAt r 2 + 16777216 * byteAt r 3
  else byteAt r 3 + 256 * byteAt r 2 + 65536 * byteAt r 1 + 16777216 * byteAt r 0
(v, { r with offset := r.offset + 4 })

/-- `BinaryReader.getInt64`, transcribed with the JS operator semantics. -/
def getInt64 (r : BinaryReader) : Int × BinaryReader :=
let a := getUint32 r
let b := getUint32 a.2
let lowHigh := if r.littleEndian then (a.1, b.1) else (b.1, a.1)
let low := lowHigh.1
let high := lowHigh.2
if jsAnd high 0x80000000 ≠ 0 then
  let high1 := jsAnd (jsNot high) 0xffffffff
  let low1 := jsAnd (jsNot low) 0xffffffff
  let high2 := if low1 = 0xffffffff then jsAnd (high1 + 1) 0xffffffff else high1
  let low2 := jsAnd (low1 + 1) 0xffffffff
  (-(high2 * 0x100000000 + low2), b.2)
else
  (high * 0x100000000 + low, b.2)

/-- The signed 64-bit integer value that 8 little-endian bytes encode. -/
def int64OfBytesLE (bs : List Nat) : Int :=
let u : Int := (bs.take 8).reverse.foldl (fun acc b => acc * 256 + (b : Int)) 0
if u < 9223372036854775808 then u else u - 18446744073709551616

/-- **C9.** `BinaryReader.getInt64` is documented (in the source's own
comment) to be correct for values within `±2^53`, but the JS bitwise
coercions break the negation path: for the 8 little-endian bytes encoding
`-2^31` (magnitude well below `2^53`) it returns `+2^31`.  The cursor
still advances by exactly 8 bytes. -/
theorem getInt64_wrong_within_safe_range :
    (getInt64 ⟨[0x00, 0x00, 0x00, 0x80, 0xFF, 0xFF, 0xFF, 0xFF], 0, true⟩).1 =
        2147483648 ∧
    int64OfBytesLE [0x00, 0x00, 0x00, 0x80, 0xFF, 0xFF, 0xFF, 0xFF] =
        -2147483648 ∧
    (getInt64 ⟨[0x00, 0x00, 0x00, 0x80, 0xFF, 0xFF, 0xFF, 0xFF], 0, true⟩).2.offset = 8 := by
constructor
· decide
constructor
· decide
· decide

end FBXReader

/-! ### FBX version gates (`BinaryParser.parse`, `FBXLoader.parse`)

`BinaryParser.parse` skips the 23-byte magic block, reads a `u32` version
and throws when it is `< 6400`; only then does node parsing start.  The
node-parsing loop that follows the gate is abstracted as a continuation
`cont`, invoked exactly when the check passes.  On the ASCII path,
`FBXLoader.parse` checks `isFbxFormatASCII` and then throws when
`getFbxVersion(text) < 7000` before invoking the text tokenizer. -/

namespace FBXGate

open FBXReader

def skip (r : BinaryReader) (n : Nat) : BinaryReader :=
{ r with offset := r.offset + n }

/-- `BinaryParser.parse` up to and including the version gate; the
`while (!endOfContent) parseNode` loop is the continuation `cont`. -/
def binaryParse {α : Type} (cont : BinaryReader → Int → α) (buffer : List Nat) : Except String α :=
let reader : BinaryReader := ⟨buffer, 0, true⟩
let reader1 := skip reader 23
let vr := getUint32 reader1
if vr.1 < 6400 then
  Except.error ("THREE.FBXLoader: FBX version not supported, FileVersion: " ++ toString vr.1)
else
  Except.ok (cont vr.2 vr.1)

/-- The version `u32` that `BinaryParser.parse` reads at offset 23. -/
def binaryVersionOf (buffer : List Nat) : Int :=
(getUint32 (skip ⟨buffer, 0, true⟩ 23)).1

/-- The fixed character sequence of `isFbxFormatASCII`. -/
def CORRECT : List Char :=
['K', 'a', 'y', 'd', 'a', 'r', 'a', '\\', 'F', 'B', 'X', '\\', 'B', 'i', 'n', 'a', 'r', 'y', '\\', '\\']

/-- The loop of `isFbxFormatASCII`: each `read(1)` returns `text[0]`, then
slices `cursor + 1` characters off the front and bumps `cursor`. -/
def isFbxFormatASCIIAux : List Char → List Char → Nat → Bool
| [], _, _ => true
| c :: rest, text, cursor =>
  let result := text.head?
  if result = some c then false
  else isFbxFormatASCIIAux rest (text.drop (cursor + 1)) (cursor + 1)

def isFbxFormatASCII (text : String) : Bool :=
isFbxFormatASCIIAux CORRECT text.toList 0

def parseIntDigits (l : List Char) : Nat :=
l.foldl (fun a c => a * 10 + (c.toNat - 48)) 0

/-- First match of the regular expression `FBXVersion: (\d+)`: scan for the
first position where the literal is followed by at least one digit; the
capture is the maximal digit run there. -/
def findFBXVersion : List Char → Option Nat
| [] => none
| c :: rest =>
  if ("FBXVersion: ".toList).isPrefixOf (c :: rest) then
    let ds := ((c :: rest).drop ("FBXVersion: ".toList).length).takeWhile Char.isDigit
    if ds.isEmpty then findFBXVersion rest else some (parseIntDigits ds)
  else findFBXVersion rest

/-- `getFbxVersion`, which throws when the regular expression does not match. -/
def getFbxVersion (text : String) : Except String Nat :=
match findFBXVersion text.toList with
| some v => Except.ok v
| none => Except.error "THREE.FBXLoader: Cannot find the version number for the file given."

/-- The ASCII branch of `FBXLoader.parse` (taken when `isFbxFormatBinary`
fails), with `new TextParser().parse` and everything after it abstracted
as the continuation `textParser`. -/
def parseASCIIPath {β : Type} (textParser : String → β) (text : String) : Except String β :=
if ¬ isFbxFormatASCII text then
  Except.error "THREE.FBXLoader: Unknown format."
else
  match getFbxVersion text with
  | Except.error e => Except.error e
  | Except.ok v =>
    if v < 7000 then
      Except.error ("THREE.FBXLoader: FBX version not supported, FileVersion: " ++ toString v)
    else
      Except.ok (textParser text)

/-- **C8.** The binary parse aborts with the unsupported-version error (and
never reaches node parsing, so no scene graph is produced) exactly when the
`u32` read after the 23-byte magic block is `< 6400`, and otherwise the
version gate lets parsing proceed; on the ASCII path, a matched
`FBXVersion` below `7000` aborts with the unsupported-version error and a
matched version `≥ 7000` passes the gate into the text tokenizer. -/
theorem fbx_version_gates {α β : Type} (cont : BinaryReader → Int → α)
    (textParser : String → β) (buffer : List Nat) (text : String) (v : Nat) :
    (binaryVersionOf buffer < 6400 →
      binaryParse cont buffer =
        Except.error
          ("THREE.FBXLoader: FBX version not supported, FileVersion: " ++
            toString (binaryVersionOf buffer))) ∧
    (6400 ≤ binaryVersionOf buffer →
      binaryParse cont buffer =
        Except.ok (cont (getUint32 (skip ⟨buffer, 0, true⟩ 23)).2 (binaryVersionOf buffer))) ∧
    (isFbxFormatASCII text = true → getFbxVersion text = Except.ok v →
      (v < 7000 →
        parseASCIIPath textParser text =
          Except.error
            ("THREE.FBXLoader: FBX version not supported, FileVersion: " ++ toString v)) ∧
      (7000 ≤ v → parseASCIIPath textParser text = Except.ok (textParser text))) := by
refine ⟨?_, ?_, ?_⟩
· intro h
  unfold binaryVersionOf at h
  simp only [binaryParse, binaryVersionOf]
  rw [if_pos h]
· intro h
  unfold binaryVersionOf at h
  simp only [binaryParse, binaryVersionOf]
  rw [if_neg (not_lt.mpr h)]
· intro hascii hver
  constructor
  · intro hlt
    unfold parseASCIIPath
    rw [if_neg (by simp [hascii])]
    rw [hver]
    simp only [if_pos hlt]
  · intro hge
    unfold parseASCIIPath
    rw [if_neg (by simp [hascii])]
    rw [hver]
    simp only [not_lt.mpr hge, if_false]

/-- Witness for C8: a binary header with version 6000 is rejected while one
with version 7500 passes the gate, and an ASCII text whose `FBXVersion` is
6100 is rejected while 7700 passes. -/
theorem fbx_version_gates_witness :
    (binaryParse (fun _ v => v)
        (List.replicate 23 0 ++ [0x70, 0x17, 0x00, 0x00]) =
      Except.error "THREE.FBXLoader: FBX version not supported, FileVersion: 6000") ∧
    (binaryParse (fun _ v => v)
        (List.replicate 23 0 ++ [0x4C, 0x1D, 0x00, 0x00]) =
      Except.ok 7500) ∧
    (parseASCIIPath (fun t => t) "FBXVersion: 6100" =
      Except.error "THREE.FBXLoader: FBX version not supported, FileVersion: 6100") ∧
    (parseASCIIPath (fun t => t) "FBXVersion: 7700" =
      Except.ok "FBXVersion: 7700") := by
refine ⟨?_, ?_, ?_, ?_⟩
· have h := (fbx_version_gates (fun _ v => v) (fun t : String => t)
    (List.replicate 23 0 ++ [0x70, 0x17, 0x00, 0x00]) "" 0).1 (by decide)
  rw [h]
  rfl
· have h := (fbx_version_gates (fun _ v => v) (fun t : String => t)
    (List.replicate 23 0 ++ [0x4C, 0x1D, 0x00, 0x00]) "" 0).2.1 (by decide)
  rw [h]
  rfl
· have h := ((fbx_version_gates (fun _ : BinaryReader => fun v : Int => v) (fun t : String => t)
    [] "FBXVersion: 6100" 6100).2.2 (by decide) (by rfl)).1 (by decide)
  rw [h]
  rfl
· have h := ((fbx_version_gates (fun _ : BinaryReader => fun v : Int => v) (fun t : String => t)
    [] "FBXVersion: 7700" 7700).2.2 (by decide) (by rfl)).2 (by decide)
  rw [h]

end FBXGate

/-! ### glTF dependency cache (`GLTFParser.getDependency`, glb-edge-geometry.ts)

`getDependency(type, index)` looks up `type + ':' + index` in the parser's
cache; on a miss it dispatches on `type` to the matching loader, which
builds a *new* promise, caches it under the key, and returns it.  The
model identifies a promise object with an allocation id (`nextId`) and
records every loader invocation in `loads`; an unknown `type` throws
before anything is cached.  Because glTF resolution is cooperative
(single-threaded), two "concurrent" requests are two successive calls. -/

namespace GLTFCache

/-- The dependency types `getDependency` dispatches on. -/
def knownTypes : List String :=
["scene", "node", "mesh", "accessor", "bufferView", "buffer", "material",
 "texture", "skin", "animation", "camera"]

structure ParserState where
cache : List (String × Nat)
nextId : Nat
loads : List String

def initState : ParserState :=
⟨[], 0, []⟩

def cacheGet (c : List (String × Nat)) (k : String) : Option Nat :=
(c.find? (fun p => p.1 == k)).map Prod.snd

/-- `GLTFParser.getDependency`.  Returns the promise id for the dependency
together with the state after the call. -/
def getDependency (s : ParserState) (type : String) (index : Nat) :
    Except String (Nat × ParserState) :=
let cacheKey := type ++ ":" ++ toString index
match cacheGet s.cache cacheKey with
| some dependency => Except.ok (dependency, s)
| none =>
  if type ∈ knownTypes then
    Except.ok (s.nextId,
      { cache := s.cache ++ [(cacheKey, s.nextId)],
        nextId := s.nextId + 1,
        loads := s.loads ++ [cacheKey] })
  else
    Except.error ("Unknown type: " ++ type)

/-- Replay a list of requests, ignoring failures (each request is a
`(type, index)` pair; a failed request leaves the state unchanged, as the
JS `throw` happens before `cache.add`). -/
def runRequests (s : ParserState) : List (String × Nat) → ParserState
| [] => s
| (t, i) :: rest =>
  match getDependency s t i with
  | Except.ok r => runRequests r.2 rest
  | Except.error _ => runRequests s rest

theorem cacheGet_append_self (c : List (String × Nat)) (k : String) (v : Nat) :
    cacheGet (c ++ [(k, v)]) k = some ((cacheGet c k).getD v) := by
induction c with
| nil => simp [cacheGet, List.find?]
| cons hd tl ih =>
  obtain ⟨k₀, v₀⟩ := hd
  by_cases h : k₀ = k
  · simp [cacheGet, List.find?, h]
  · have hne : (k₀ == k) = false := by simpa using h
    simpa [cacheGet, List.find?, hne] using ih

theorem cacheGet_cons (k₀ : String) (v₀ : Nat) (t : List (String × Nat)) (k' : String) :
    cacheGet ((k₀, v₀) :: t) k' = if k₀ = k' then some v₀ else cacheGet t k' := by
by_cases h : k₀ = k'
· rw [if_pos h]
  unfold cacheGet
  rw [List.find?_cons_of_pos _ (by simpa using h)]
  rfl
· rw [if_neg h]
  unfold cacheGet
  rw [List.find?_cons_of_neg _ (by simpa using h)]

theorem cacheGet_append_other (c : List (String × Nat)) (k key : String) (v : Nat)
    (h : ¬ key = k) :
    cacheGet (c ++ [(key, v)]) k = cacheGet c k := by
induction c with
| nil => simp [cacheGet_cons, h, cacheGet]
| cons hd tl ih =>
  obtain ⟨k₀, v₀⟩ := hd
  by_cases h0 : k₀ = k
  · simp [List.cons_append, cacheGet_cons, h0]
  · simpa [List.cons_append, cacheGet_cons, h0] using ih

/-- The invariant tying the cache to the load log. -/
def CacheInv (s : ParserState) : Prop :=
(∀ k, s.loads.count k ≤ 1) ∧ (∀ k, k ∈ s.loads ↔ (cacheGet s.cache k).isSome)

theorem cacheInv_init : CacheInv initState := by
constructor
· intro k; simp [initState]
· intro k; simp [initState, cacheGet]

theorem getDependency_preserves_inv (s : ParserState) (t : String) (i : Nat)
    (hs : CacheInv s) :
    (∀ r, getDependency s t i = Except.ok r → CacheInv r.2) ∧
    (∀ e, getDependency s t i = Except.error e → True) := by
refine ⟨?_, fun _ _ => trivial⟩
intro r hr
simp only [getDependency] at hr
set key := t ++ ":" ++ toString i with hkey
cases hget : cacheGet s.cache key with
| some d =>
  rw [hget] at hr
  simp at hr
  rw [← hr]
  exact hs
| none =>
  rw [hget] at hr
  by_cases hk : t ∈ knownTypes
  · rw [if_pos hk] at hr
    simp at hr
    rw [← hr]
    obtain ⟨h1, h2⟩ := hs
    have hnotin : key ∉ s.loads := by
      intro hmem
      have := (h2 key).mp hmem
      rw [hget] at this
      simp at this
    constructor
    · intro k
      by_cases hkk : k = key
      · subst hkk
        rw [List.count_append]
        have : s.loads.count key = 0 := List.count_eq_zero.mpr hnotin
        simp [this]
      · rw [List.count_append]
        have : List.count k [key] = 0 := by
          simp [List.count_singleton]
          exact fun h => absurd h.symm hkk
        simpa [this] using h1 k
    · intro k
      by_cases hkk : k = key
      · subst hkk
        simp [cacheGet_append_self]
      · rw [List.mem_append]
        rw [cacheGet_append_other _ _ _ _ (fun h => hkk h.symm)]
        have h4 : k ∈ [key] ↔ False := by
          simp
          exact fun h => absurd h hkk
        rw [h4]
        simpa using h2 k
  · rw [if_neg hk] at hr
    simp at hr

theorem runRequests_preserves_inv (reqs : List (String × Nat)) (s : ParserState)
    (hs : CacheInv s) : CacheInv (runRequests s reqs) := by
induction reqs generalizing s with
| nil => simpa [runRequests]
| cons hd rest ih =>
  obtain ⟨t, i⟩ := hd
  unfold runRequests
  cases hr : getDependency s t i with
  | ok r =>
    exact ih r.2 (((getDependency_preserves_inv s t i hs).1) r hr)
  | error e =>
    exact ih s hs

/-- **C5.** `getDependency` is memoized per `"type:index"` key: a repeated
call with the same type and index returns the *same* promise id and leaves
the parser state untouched (hence the underlying loader is not re-invoked
and two cooperative "concurrent" requests share one decode), and across any
sequence of requests starting from a fresh parser the loader for each key
runs at most once. -/
theorem getDependency_memoized (s : ParserState) (t : String) (i : Nat)
    (p : Nat) (s1 : ParserState)
    (h : getDependency s t i = Except.ok (p, s1)) :
    getDependency s1 t i = Except.ok (p, s1) ∧
    (∀ reqs : List (String × Nat), (runRequests initState reqs).loads.count (t ++ ":" ++ toString i) ≤ 1) := by
constructor
· simp only [getDependency] at h ⊢
  set key := t ++ ":" ++ toString i with hkey
  cases hget : cacheGet s.cache key with
  | some d =>
    rw [hget] at h
    simp at h
    rw [← h.2, ← h.1, hget]
  | none =>
    rw [hget] at h
    by_cases hk : t ∈ knownTypes
    · rw [if_pos hk] at h
      simp at h
      rw [← h.2]
      simp only []
      rw [cacheGet_append_self, hget]
      simp [← h.1]
    · rw [if_neg hk] at h
      simp at h
· intro reqs
  exact (runRequests_preserves_inv reqs initState cacheInv_init).1 _

/-- Witness for C5: two successive requests for texture 3 on a fresh parser
return the same promise id, leave the state of the first call unchanged,
and the texture loader has run exactly once. -/
theorem getDependency_memoized_witness :
    ∃ p s1, getDependency initState "texture" 3 = Except.ok (p, s1) ∧
      getDependency s1 "texture" 3 = Except.ok (p, s1) ∧
      s1.loads = ["texture:3"] := by
refine ⟨0, ⟨[("texture:3", 0)], 1, ["texture:3"]⟩, by rfl, ?_, by rfl⟩
exact (getDependency_memoized initState "texture" 3 0
  ⟨[("texture:3", 0)], 1, ["texture:3"]⟩ (by rfl)).1

end GLTFCache

/-! ### FBX skin-weight truncation (`GeometryParser.genBuffers`, FBX-geometry-parser.ts)

Per polygon vertex, `genBuffers` collects all `(weight, boneIndex)`
contributions from the weight table.  When more than 4 are present it runs
a fixed-4-slot selection pass: each `(weight, index)` pair is threaded
through the slot array `Weight`/`wIndex` (initially zeros), swapping with a
slot whenever the carried weight is strictly greater, and the carry left
after the last slot is dropped.  When 4 or fewer are present both arrays
are zero-padded to length 4.  Weights are modelled as `Rat` (the source's
doubles appear only in order comparisons here). -/

namespace FBXWeights

/-- The inner `Weight.forEach` swap pass of `genBuffers`: thread `p`
through the slot list, swapping at each strictly-smaller slot; the final
carry is dropped. -/
def insertSlots : List (Rat × Nat) → (Rat × Nat) → List (Rat × Nat)
| [], _ => []
| s :: rest, p => if s.1 < p.1 then p :: insertSlots rest s else s :: insertSlots rest p

/-- The `weights.forEach` loop over all contributions, starting from the
four zero slots. -/
def truncatePairs (pairs : List (Rat × Nat)) : List (Rat × Nat) :=
pairs.foldl insertSlots [(0, 0), (0, 0), (0, 0), (0, 0)]

/-- The weight-resolution fragment of `genBuffers` for one vertex:
truncate to the 4 slots when more than 4 contributions exist, otherwise
zero-pad both arrays while `weights.length < 4`; the subsequent
`for (i < 4)` loop reads exactly four entries from each array. -/
def resolveWeights (weights : List Rat) (weightIndices : List Nat) : List Rat × List Nat :=
if 4 < weights.length then
  let slots := truncatePairs (weights.zip weightIndices)
  (slots.map Prod.fst, slots.map Prod.snd)
else
  ((weights ++ List.replicate (4 - weights.length) 0).take 4,
   (weightIndices ++ List.replicate (4 - weights.length) 0).take 4)

/-- Weight-level version of `insertSlots` (the branching only compares
weights). -/
def insertSlotsW : List Rat → Rat → List Rat
| [], _ => []
| s :: rest, w => if s < w then w :: insertSlotsW rest s else s :: insertSlotsW rest w

/-- Insert into a descending-sorted list (specification-side sort step). -/
def insertDescW (w : Rat) : List Rat → List Rat
| [] => [w]
| q :: t => if q < w then w :: q :: t else q :: insertDescW w t

/-- Descending insertion sort (specification-side notion of "the largest
weights first"). -/
def sortDescW (l : List Rat) : List Rat :=
l.foldl (fun acc w => insertDescW w acc) []

/-- Descending order. -/
def SortedW (l : List Rat) : Prop :=
l.Pairwise (fun a b => b ≤ a)

theorem insertSlots_map_fst (slots : List (Rat × Nat)) (p : Rat × Nat) :
    (insertSlots slots p).map Prod.fst = insertSlotsW (slots.map Prod.fst) p.1 := by
induction slots generalizing p with
| nil => simp [insertSlots, insertSlotsW]
| cons s rest ih =>
  by_cases h : s.1 < p.1
  · simp [insertSlots, insertSlotsW, h, ih]
  · simp [insertSlots, insertSlotsW, h, ih]

theorem truncatePairs_map_fst (pairs : List (Rat × Nat)) :
    (truncatePairs pairs).map Prod.fst =
      pairs.foldl (fun acc p => insertSlotsW acc p.1) [0, 0, 0, 0] := by
unfold truncatePairs
have : ∀ (l : List (Rat × Nat)) (init : List (Rat × Nat)),
    (l.foldl insertSlots init).map Prod.fst =
      l.foldl (fun acc p => insertSlotsW acc p.1) (init.map Prod.fst) := by
  intro l
  induction l with
  | nil => simp
  | cons p t ih =>
    intro init
    simp only [List.foldl_cons, ih, insertSlots_map_fst]
exact this pairs _

theorem insertSlots_mem : ∀ (slots : List (Rat × Nat)) (p q : Rat × Nat),
    q ∈ insertSlots slots p → q = p ∨ q ∈ slots := by
intro slots
induction slots with
| nil => intro p q hq; simp [insertSlots] at hq
| cons s rest ih =>
  intro p q hq
  rw [insertSlots] at hq
  by_cases h : s.1 < p.1
  · rw [if_pos h] at hq
    rcases List.mem_cons.mp hq with h1 | h1
    · exact Or.inl h1
    · rcases ih s q h1 with h2 | h2
      · subst h2; exact Or.inr (List.mem_cons_self _ _)
      · exact Or.inr (List.mem_cons_of_mem s h2)
  · rw [if_neg h] at hq
    rcases List.mem_cons.mp hq with h1 | h1
    · subst h1; exact Or.inr (List.mem_cons_self _ _)
    · rcases ih p q h1 with h2 | h2
      · exact Or.inl h2
      · exact Or.inr (List.mem_cons_of_mem s h2)

theorem truncatePairs_mem (pairs : List (Rat × Nat)) (q : Rat × Nat)
    (hq : q ∈ truncatePairs pairs) : q ∈ pairs ∨ q = (0, 0) := by
unfold truncatePairs at hq
have : ∀ (l : List (Rat × Nat)) (init : List (Rat × Nat)),
    q ∈ l.foldl insertSlots init → q ∈ l ∨ q ∈ init := by
  intro l
  induction l with
  | nil => intro init h; exact Or.inr h
  | cons p t ih =>
    intro init h
    rcases ih (insertSlots init p) h with h1 | h1
    · exact Or.inl (List.mem_cons_of_mem p h1)
    · rcases insertSlots_mem init p q h1 with h2 | h2
      · exact Or.inl (h2 ▸ List.mem_cons_self p t)
      · exact Or.inr h2
rcases this pairs _ hq with h | h
· exact Or.inl h
· right
  simpa using h

theorem take_insertDescW (w : Rat) :
    ∀ (t : List Rat) (n : Nat),
    (insertDescW w (t.take n)).take n = (insertDescW w t).take n := by
intro t
induction t with
| nil => intro n; simp
| cons q rest ih =>
  intro n
  cases n with
  | zero => simp
  | succ m =>
    by_cases h : q < w
    · simp only [List.take_succ_cons, insertDescW, if_pos h]
      cases m with
      | zero => simp
      | succ m2 =>
        simp only [List.take_succ_cons]
        rw [List.take_take, Nat.min_eq_left (Nat.le_succ m2)]
    · simp only [List.take_succ_cons, insertDescW, if_neg h]
      simp only [List.take_succ_cons, ih m]

theorem insertSlotsW_of_ge : ∀ (t : List Rat) (s : Rat),
    SortedW (s :: t) → insertSlotsW t s = (s :: t).take t.length := by
intro t
induction t with
| nil => intro s _; simp [insertSlotsW]
| cons q rest ih =>
  intro s hs
  have hq : q ≤ s := (List.pairwise_cons.mp hs).1 q (List.mem_cons_self q rest)
  have hrest : SortedW (q :: rest) := (List.pairwise_cons.mp hs).2
  rw [insertSlotsW]
  by_cases h : q < s
  · rw [if_pos h]
    have hq' : SortedW (q :: rest) := hrest
    rw [ih q hq']
    simp [List.take_succ_cons]
  · rw [if_neg h]
    have heq : q = s := le_antisymm hq (not_lt.mp h)
    have hs' : SortedW (s :: rest) := by
      subst heq
      exact hrest
    rw [ih s hs']
    subst heq
    simp [List.take_succ_cons]

theorem insertSlotsW_eq : ∀ (t : List Rat) (w : Rat),
    SortedW t → insertSlotsW t w = (insertDescW w t).take t.length := by
intro t
induction t with
| nil => intro w _; simp [insertSlotsW, insertDescW]
| cons q rest ih =>
  intro w hs
  have hrest : SortedW rest := (List.pairwise_cons.mp hs).2
  rw [insertSlotsW]
  by_cases h : q < w
  · rw [if_pos h, insertDescW, if_pos h]
    rw [insertSlotsW_of_ge rest q hs]
    simp [List.take_succ_cons]
  · rw [if_neg h, insertDescW, if_neg h]
    rw [ih w hrest]
    simp [List.take_succ_cons]

theorem insertDescW_sorted (w : Rat) :
    ∀ (l : List Rat), SortedW l → SortedW (insertDescW w l) := by
intro l
induction l with
| nil => intro _; simp [insertDescW, SortedW]
| cons q rest ih =>
  intro hs
  obtain ⟨hq, hrest⟩ := List.pairwise_cons.mp hs
  by_cases h : q < w
  · rw [insertDescW, if_pos h]
    refine List.pairwise_cons.mpr ⟨?_, hs⟩
    intro b hb
    rcases List.mem_cons.mp hb with h1 | h1
    · exact h1 ▸ le_of_lt h
    · exact le_trans (hq b h1) (le_of_lt h)
  · rw [insertDescW, if_neg h]
    refine List.pairwise_cons.mpr ⟨?_, ih hrest⟩
    intro b hb
    have hmem : b = w ∨ b ∈ rest := by
      have : ∀ (l2 : List Rat), b ∈ insertDescW w l2 → b = w ∨ b ∈ l2 := by
        intro l2
        induction l2 with
        | nil => intro hb2; simpa [insertDescW] using hb2
        | cons x t ih2 =>
          intro hb2
          by_cases hx : x < w
          · rw [insertDescW, if_pos hx] at hb2
            rcases List.mem_cons.mp hb2 with h2 | h2
            · exact Or.inl h2
            · exact Or.inr h2
          · rw [insertDescW, if_neg hx] at hb2
            rcases List.mem_cons.mp hb2 with h2 | h2
            · exact Or.inr (h2 ▸ List.mem_cons_self x t)
            · rcases ih2 h2 with h3 | h3
              · exact Or.inl h3
              · exact Or.inr (List.mem_cons_of_mem x h3)
      exact this rest hb
    rcases hmem with h1 | h1
    · exact h1 ▸ not_lt.mp h
    · exact hq b h1

theorem insertDescW_mem (w b : Rat) :
    ∀ (l : List Rat), b ∈ insertDescW w l ↔ b = w ∨ b ∈ l := by
intro l
induction l with
| nil => simp [insertDescW]
| cons x t ih =>
  by_cases hx : x < w
  · rw [insertDescW, if_pos hx]
    simp
  · rw [insertDescW, if_neg hx]
    simp only [List.mem_cons, ih]
    tauto

theorem insertDescW_perm (w : Rat) (l : List Rat) :
    (insertDescW w l).Perm (w :: l) := by
induction l with
| nil => simp [insertDescW]
| cons x t ih =>
  by_cases hx : x < w
  · rw [insertDescW, if_pos hx]
  · rw [insertDescW, if_neg hx]
    have h1 : (x :: insertDescW w t).Perm (x :: w :: t) := List.Perm.cons x ih
    have h2 : (x :: w :: t).Perm (w :: x :: t) := List.Perm.swap w x t
    exact h1.trans h2

theorem sortDescW_perm (l : List Rat) : (sortDescW l).Perm l := by
have key : ∀ (l2 acc : List Rat),
    (l2.foldl (fun acc w => insertDescW w acc) acc).Perm (acc ++ l2) := by
  intro l2
  induction l2 with
  | nil => intro acc; simp
  | cons w t ih =>
    intro acc
    have h1 := ih (insertDescW w acc)
    have h2 : ((insertDescW w acc) ++ t).Perm ((w :: acc) ++ t) :=
      List.Perm.append_right t (insertDescW_perm w acc)
    have h3 : ((w :: acc) ++ t).Perm (acc ++ w :: t) := by
      simpa using List.perm_middle.symm
    exact (h1.trans h2).trans h3
simpa [sortDescW] using key l []

theorem sortDescW_sorted (l : List Rat) : SortedW (sortDescW l) := by
have : ∀ (l2 : List Rat) (acc : List Rat), SortedW acc →
    SortedW (l2.foldl (fun acc w => insertDescW w acc) acc) := by
  intro l2
  induction l2 with
  | nil => intro acc h; simpa using h
  | cons w t ih =>
    intro acc h
    exact ih _ (insertDescW_sorted w acc h)
exact this l [] (by simp [SortedW])

theorem insertDescW_append_nonpos (w : Rat) (hw : 0 < w) :
    ∀ (l zs : List Rat), (∀ z ∈ zs, z ≤ 0) →
    insertDescW w (l ++ zs) = insertDescW w l ++ zs := by
intro l
induction l with
| nil =>
  intro zs hzs
  cases zs with
  | nil => simp
  | cons z t =>
    have : z < w := lt_of_le_of_lt (hzs z (List.mem_cons_self z t)) hw
    simp [insertDescW, this]
| cons q t ih =>
  intro zs hzs
  by_cases h : q < w
  · simp [insertDescW, h]
  · simp [insertDescW, h, ih zs hzs]

theorem insertSlotsW_length : ∀ (t : List Rat) (w : Rat),
    (insertSlotsW t w).length = t.length := by
intro t
induction t with
| nil => intro w; simp [insertSlotsW]
| cons q rest ih =>
  intro w
  by_cases h : q < w
  · simp [insertSlotsW, h, ih]
  · simp [insertSlotsW, h, ih]

theorem insertSlots_length : ∀ (t : List (Rat × Nat)) (p : Rat × Nat),
    (insertSlots t p).length = t.length := by
intro t
induction t with
| nil => intro p; simp [insertSlots]
| cons q rest ih =>
  intro p
  by_cases h : q.1 < p.1
  · simp [insertSlots, h, ih]
  · simp [insertSlots, h, ih]

theorem truncatePairs_length (pairs : List (Rat × Nat)) :
    (truncatePairs pairs).length = 4 := by
unfold truncatePairs
have : ∀ (l : List (Rat × Nat)) (init : List (Rat × Nat)),
    (l.foldl insertSlots init).length = init.length := by
  intro l
  induction l with
  | nil => intro init; simp
  | cons p t ih =>
    intro init
    simp only [List.foldl_cons, ih, insertSlots_length]
exact this pairs _

/-- The 4-slot selection loop computes the first four entries of the
descending sort, provided all weights are positive. -/
theorem truncLoopW_eq (l : List Rat) (hpos : ∀ w ∈ l, 0 < w) :
    l.foldl (fun acc w => insertSlotsW acc w) [0, 0, 0, 0] =
      (sortDescW l ++ [0, 0, 0, 0]).take 4 := by
induction l using List.reverseRecOn with
| nil => simp [sortDescW]
| append_singleton t w ih =>
  have hw : 0 < w := hpos w (by simp)
  have hpt : ∀ x ∈ t, 0 < x := fun x hx => hpos x (by simp [hx])
  have hsorted : SortedW (sortDescW t) := sortDescW_sorted t
  have hmem : ∀ x ∈ sortDescW t, 0 < x := by
    intro x hx
    exact hpt x ((sortDescW_perm t).mem_iff.mp hx)
  have hszsorted : SortedW (sortDescW t ++ [0, 0, 0, 0]) := by
    rw [SortedW, List.pairwise_append]
    refine ⟨hsorted, by simp, ?_⟩
    intro a ha b hb
    have hb0 : b = 0 := by simpa using hb
    rw [hb0]
    exact le_of_lt (hmem a ha)
  have htakesorted : SortedW ((sortDescW t ++ [0, 0, 0, 0]).take 4) :=
    List.Pairwise.sublist (List.take_sublist 4 _) hszsorted
  have hlen4 : ((sortDescW t ++ [0, 0, 0, 0]).take 4).length = 4 := by
    rw [List.length_take, List.length_append]
    simp
  rw [List.foldl_append, List.foldl_cons, List.foldl_nil, ih hpt]
  rw [insertSlotsW_eq _ _ htakesorted, hlen4]
  rw [take_insertDescW]
  rw [insertDescW_append_nonpos w hw _ _ (by simp)]
  have hsw : sortDescW (t ++ [w]) = insertDescW w (sortDescW t) := by
    unfold sortDescW
    rw [List.foldl_append, List.foldl_cons, List.foldl_nil]
  rw [hsw]

theorem zip_map_fst_snd : ∀ (l : List (Rat × Nat)),
    (l.map Prod.fst).zip (l.map Prod.snd) = l := by
intro l
induction l with
| nil => rfl
| cons p t ih => simp [ih]

/-- **C2 (amended).** For positive skin weights: whenever more than 4
`(weight, boneIndex)` contributions exist, the kept 4-slot weight array is
exactly the first four entries of the descending sort of the weights (sort
justified inside the statement by sortedness and permutation), and every
kept `(weight, boneIndex)` pair is one of the input pairs; with 4 or fewer
contributions both arrays are zero-padded to length exactly 4; the output
arrays always have length 4.  (The unamended claim fails when nonpositive
weights occur, see the counterexample: the zero-initialized slots never
admit them.) -/
theorem genBuffers_weights_resolved (ws : List Rat) (ids : List Nat)
    (hlen : ws.length = ids.length) (hpos : ∀ w ∈ ws, 0 < w) :
    (SortedW (sortDescW ws) ∧ (sortDescW ws).Perm ws) ∧
    (4 < ws.length →
      (resolveWeights ws ids).1 = (sortDescW ws).take 4 ∧
      (∀ p ∈ (resolveWeights ws ids).1.zip (resolveWeights ws ids).2, p ∈ ws.zip ids)) ∧
    (ws.length ≤ 4 →
      resolveWeights ws ids =
        (ws ++ List.replicate (4 - ws.length) 0, ids ++ List.replicate (4 - ws.length) 0)) ∧
    (resolveWeights ws ids).1.length = 4 ∧ (resolveWeights ws ids).2.length = 4 := by
have hmapfst : (ws.zip ids).map Prod.fst = ws := List.map_fst_zip ws ids (le_of_eq hlen)
have hkey : 4 < ws.length →
    (truncatePairs (ws.zip ids)).map Prod.fst = (sortDescW ws).take 4 := by
  intro hgt
  rw [truncatePairs_map_fst]
  have : (ws.zip ids).foldl (fun acc p => insertSlotsW acc p.1) [0, 0, 0, 0] =
      ((ws.zip ids).map Prod.fst).foldl (fun acc w => insertSlotsW acc w) [0, 0, 0, 0] := by
    rw [List.foldl_map]
  rw [this, hmapfst, truncLoopW_eq ws hpos]
  have hlen4 : 4 ≤ (sortDescW ws).length := by
    rw [(sortDescW_perm ws).length_eq]
    omega
  rw [List.take_append_of_le_length hlen4]
refine ⟨⟨sortDescW_sorted ws, sortDescW_perm ws⟩, ?_, ?_, ?_⟩
· intro hgt
  constructor
  · simp only [resolveWeights, if_pos hgt]
    exact hkey hgt
  · intro p hp
    simp only [resolveWeights, if_pos hgt] at hp
    rw [zip_map_fst_snd] at hp
    rcases truncatePairs_mem _ p hp with h | h
    · exact h
    · exfalso
      have hfst : p.1 ∈ (truncatePairs (ws.zip ids)).map Prod.fst :=
        List.mem_map_of_mem Prod.fst hp
      rw [hkey hgt] at hfst
      have hmem2 : p.1 ∈ sortDescW ws := List.mem_of_mem_take hfst
      have hpos2 : 0 < p.1 := hpos _ ((sortDescW_perm ws).mem_iff.mp hmem2)
      rw [h] at hpos2
      simp at hpos2
· intro hle
  simp only [resolveWeights, if_neg (not_lt.mpr hle)]
  have h1 : (ws ++ List.replicate (4 - ws.length) 0).length ≤ 4 := by
    rw [List.length_append, List.length_replicate]
    omega
  have h2 : (ids ++ List.replicate (4 - ws.length) 0).length ≤ 4 := by
    rw [List.length_append, List.length_replicate, ← hlen]
    omega
  rw [List.take_of_length_le h1, List.take_of_length_le h2]
· by_cases hgt : 4 < ws.length
  · simp only [resolveWeights, if_pos hgt]
    simp [truncatePairs_length]
  · simp only [resolveWeights, if_neg hgt]
    have hle : ws.length ≤ 4 := not_lt.mp hgt
    constructor
    · rw [List.length_take, List.length_append, List.length_replicate]
      omega
    · rw [List.length_take, List.length_append, List.length_replicate, ← hlen]
      omega

/-- Counterexample to C2 as stated: with five strictly negative weights
nothing ever displaces the zero-initialized slots, so the kept weights are
`[0,0,0,0]`, not the four largest `[-1,-2,-3,-4]` (and the kept indices
are the zero sentinels, not the corresponding bone indices). -/
theorem genBuffers_weights_counterexample :
    resolveWeights [-1, -2, -3, -4, -5] [1, 2, 3, 4, 5] = ([0, 0, 0, 0], [0, 0, 0, 0]) ∧
    (sortDescW [-1, -2, -3, -4, -5]).take 4 = [-1, -2, -3, -4] ∧
    ((resolveWeights [-1, -2, -3, -4, -5] [1, 2, 3, 4, 5]).1 : Multiset Rat) ≠
      ((sortDescW [-1, -2, -3, -4, -5]).take 4 : Multiset Rat) := by
refine ⟨by decide, by decide, by decide⟩

/-- Witness for C2: the spec's concrete example.  For weights
`[0.1, 0.4, 0.05, 0.3, 0.15]`, the resolved slots are exactly the four
largest `0.4, 0.3, 0.15, 0.1` with their bone indices, dropping `0.05`. -/
theorem genBuffers_weights_resolved_witness :
    (resolveWeights [mkRat 1 10, mkRat 2 5, mkRat 1 20, mkRat 3 10, mkRat 3 20]
        [0, 1, 2, 3, 4]).1 =
      (sortDescW [mkRat 1 10, mkRat 2 5, mkRat 1 20, mkRat 3 10, mkRat 3 20]).take 4 ∧
    resolveWeights [mkRat 1 10, mkRat 2 5, mkRat 1 20, mkRat 3 10, mkRat 3 20]
        [0, 1, 2, 3, 4] =
      ([mkRat 2 5, mkRat 3 10, mkRat 3 20, mkRat 1 10], [1, 3, 4, 0]) := by
constructor
· exact ((genBuffers_weights_resolved
    [mkRat 1 10, mkRat 2 5, mkRat 1 20, mkRat 3 10, mkRat 3 20] [0, 1, 2, 3, 4]
    (by decide) (by decide)).2.1 (by decide)).1
· decide

end FBXWeights

/-! ### FBX vector animation tracks (`AnimationParser.getTimesForAllAxes`,
`AnimationParser.getKeyframeTrackValues`, unnamed/part_006)

Vector (translation/scale) tracks are generated on the union of the three
per-axis curves' timestamps: concatenate, numerically sort (JS
`Array.sort` with the numeric comparator produces *the* sorted
permutation, which is a unique list of numbers; modelled by insertion
sort), drop adjacent duplicates, then for each merged timestamp each axis
takes `values[times.indexOf(t)]` when its curve has a sample at exactly
`t` and otherwise carries the previous value forward, starting from the
supplied initial value. -/

namespace FBXAnim

structure AnimationCurve where
times : List Rat
values : List Rat

def axisTimes : Option AnimationCurve → List Rat
| some c => c.times
| none => []

def insertAsc (t : Rat) : List Rat → List Rat
| [] => [t]
| q :: rest => if t < q then t :: q :: rest else q :: insertAsc t rest

def sortAsc (l : List Rat) : List Rat :=
l.foldr insertAsc []

/-- The in-place adjacent-duplicate removal loop (`targetIndex` walk). -/
def dedupAdj (last : Rat) : List Rat → List Rat
| [] => []
| v :: rest => if v ≠ last then v :: dedupAdj v rest else dedupAdj last rest

/-- `AnimationParser.getTimesForAllAxes`. -/
def getTimesForAllAxes (cx cy cz : Option AnimationCurve) : List Rat :=
let times := axisTimes cx ++ axisTimes cy ++ axisTimes cz
match sortAsc times with
| [] => []
| h :: t => h :: dedupAdj h t

/-- `curves.<axis>.times.indexOf(time)` (first occurrence). -/
def hitIdx (c : AnimationCurve) (t : Rat) : Option Nat :=
c.times.findIdx? (fun u => u == t)

/-- The per-axis value at a merged timestamp: the curve's sample if one
exists at exactly that time, else the carried previous value. -/
def axisVal (c : AnimationCurve) (prev : Rat) (t : Rat) : Rat :=
match hitIdx c t with
| some j => c.values.getD j 0
| none => prev

/-- The `times.forEach` body of `getKeyframeTrackValues`, threading the
`prevValue` triple. -/
def trackValuesGo (cx cy cz : AnimationCurve) : List Rat → Rat × Rat × Rat → List Rat
| [], _ => []
| t :: rest, prev =>
  let xv := axisVal cx prev.1 t
  let yv := axisVal cy prev.2.1 t
  let zv := axisVal cz prev.2.2 t
  xv :: yv :: zv :: trackValuesGo cx cy cz rest (xv, yv, zv)

/-- `AnimationParser.getKeyframeTrackValues`. -/
def getKeyframeTrackValues (times : List Rat) (cx cy cz : AnimationCurve)
    (initialValue : Rat × Rat × Rat) : List Rat :=
trackValuesGo cx cy cz times initialValue

/-- Specification-side carry-forward: the most recent previous sample of
this axis among the merged timestamps strictly before the current one,
defaulting to the initial value. -/
def lastSampleValue (c : AnimationCurve) (init : Rat) (preTimes : List Rat) : Rat :=
match preTimes.reverse.find? (fun u => (hitIdx c u).isSome) with
| some u => axisVal c init u
| none => init

theorem insertAsc_perm (t : Rat) (l : List Rat) :
    (insertAsc t l).Perm (t :: l) := by
induction l with
| nil => simp [insertAsc]
| cons q rest ih =>
  by_cases h : t < q
  · rw [insertAsc, if_pos h]
  · rw [insertAsc, if_neg h]
    have h1 : (q :: insertAsc t rest).Perm (q :: t :: rest) := List.Perm.cons q ih
    have h2 : (q :: t :: rest).Perm (t :: q :: rest) := List.Perm.swap t q rest
    exact h1.trans h2

theorem sortAsc_perm (l : List Rat) : (sortAsc l).Perm l := by
induction l with
| nil => simp [sortAsc]
| cons x t ih =>
  have h1 : (insertAsc x (sortAsc t)).Perm (x :: sortAsc t) := insertAsc_perm x (sortAsc t)
  exact h1.trans (List.Perm.cons x ih)

theorem insertAsc_mem (t b : Rat) (l : List Rat) :
    b ∈ insertAsc t l ↔ b = t ∨ b ∈ l := by
induction l with
| nil => simp [insertAsc]
| cons q rest ih =>
  by_cases h : t < q
  · rw [insertAsc, if_pos h]
    simp
  · rw [insertAsc, if_neg h]
    simp only [List.mem_cons, ih]
    tauto

theorem insertAsc_sorted (t : Rat) (l : List Rat)
    (hl : l.Pairwise (· ≤ ·)) : (insertAsc t l).Pairwise (· ≤ ·) := by
induction l with
| nil => simp [insertAsc]
| cons q rest ih =>
  obtain ⟨hq, hrest⟩ := List.pairwise_cons.mp hl
  by_cases h : t < q
  · rw [insertAsc, if_pos h]
    refine List.pairwise_cons.mpr ⟨?_, hl⟩
    intro b hb
    rcases List.mem_cons.mp hb with h1 | h1
    · exact h1 ▸ le_of_lt h
    · exact le_trans (le_of_lt h) (hq b h1)
  · rw [insertAsc, if_neg h]
    refine List.pairwise_cons.mpr ⟨?_, ih hrest⟩
    intro b hb
    rcases (insertAsc_mem t b rest).mp hb with h1 | h1
    · exact h1 ▸ not_lt.mp h
    · exact hq b h1

theorem sortAsc_sorted (l : List Rat) : (sortAsc l).Pairwise (· ≤ ·) := by
induction l with
| nil => simp [sortAsc]
| cons x t ih => exact insertAsc_sorted x (sortAsc t) ih

theorem dedupAdj_mem : ∀ (t : List Rat) (last x : Rat),
    x ∈ last :: dedupAdj last t ↔ x ∈ last :: t := by
intro t
induction t with
| nil => intro last x; simp [dedupAdj]
| cons v rest ih =>
  intro last x
  by_cases h : v = last
  · rw [dedupAdj, if_neg (by simpa using h)]
    rw [ih last x]
    subst h
    simp only [List.mem_cons]
    tauto
  · rw [dedupAdj, if_pos h]
    constructor
    · intro hx
      rcases List.mem_cons.mp hx with h1 | h1
      · exact h1 ▸ List.mem_cons_self _ _
      · have := (ih v x).mp h1
        simp only [List.mem_cons] at this ⊢
        tauto
    · intro hx
      simp only [List.mem_cons] at hx
      rcases hx with h1 | h1 | h1
      · exact h1 ▸ List.mem_cons_self _ _
      · refine List.mem_cons_of_mem _ ?_
        rw [ih v x]
        exact h1 ▸ List.mem_cons_self _ _
      · refine List.mem_cons_of_mem _ ?_
        rw [ih v x]
        exact List.mem_cons_of_mem _ h1

theorem dedupAdj_strict : ∀ (t : List Rat) (last : Rat),
    (last :: t).Pairwise (· ≤ ·) →
    (last :: dedupAdj last t).Pairwise (· < ·) := by
intro t
induction t with
| nil => intro last _; simp [dedupAdj]
| cons v rest ih =>
  intro last hs
  obtain ⟨hl, hrest⟩ := List.pairwise_cons.mp hs
  have hlv : last ≤ v := hl v (List.mem_cons_self v rest)
  by_cases h : v = last
  · rw [dedupAdj, if_neg (by simpa using h)]
    apply ih last
    refine List.pairwise_cons.mpr ⟨?_, (List.pairwise_cons.mp hrest).2⟩
    intro b hb
    have := (List.pairwise_cons.mp hrest).1 b hb
    exact h ▸ this
  · rw [dedupAdj, if_pos h]
    have hlt : last < v := lt_of_le_of_ne hlv (fun he => h he.symm)
    have hv := ih v hrest
    refine List.pairwise_cons.mpr ⟨?_, hv⟩
    intro b hb
    rcases List.mem_cons.mp hb with h1 | h1
    · exact h1 ▸ hlt
    · have hvb : v < b := (List.pairwise_cons.mp hv).1 b h1
      exact lt_trans hlt hvb

theorem axisVal_of_hit (c : AnimationCurve) (a b t : Rat)
    (h : (hitIdx c t).isSome) : axisVal c a t = axisVal c b t := by
unfold axisVal
cases hj : hitIdx c t with
| some j => rfl
| none => rw [hj] at h; simp at h

theorem lastSampleValue_cons (c : AnimationCurve) (init t : Rat) (pre : List Rat) :
    lastSampleValue c init (t :: pre) = lastSampleValue c (axisVal c init t) pre := by
unfold lastSampleValue
rw [List.reverse_cons, List.find?_append]
cases hf : pre.reverse.find? (fun u => (hitIdx c u).isSome) with
| some u =>
  have hu : (hitIdx c u).isSome := by
    have := List.find?_some hf
    simpa using this
  show axisVal c init u = axisVal c (axisVal c init t) u
  exact axisVal_of_hit c init (axisVal c init t) u hu
| none =>
  cases hj : hitIdx c t with
  | some j =>
    have hfind : [t].find? (fun u => (hitIdx c u).isSome) = some t := by
      simp [List.find?, hj]
    show (match ((none : Option Rat).orElse fun _ => [t].find? (fun u => (hitIdx c u).isSome)) with
      | some u => axisVal c init u
      | none => init) = axisVal c init t
    rw [show ((none : Option Rat).orElse fun _ => [t].find? (fun u => (hitIdx c u).isSome)) =
      some t from hfind]
  | none =>
    have hfind : [t].find? (fun u => (hitIdx c u).isSome) = none := by
      simp [List.find?, hj]
    show (match ((none : Option Rat).orElse fun _ => [t].find? (fun u => (hitIdx c u).isSome)) with
      | some u => axisVal c init u
      | none => init) = axisVal c init t
    rw [show ((none : Option Rat).orElse fun _ => [t].find? (fun u => (hitIdx c u).isSome)) =
      none from hfind]
    show init = axisVal c init t
    unfold axisVal
    rw [hj]

theorem trackValuesGo_length (cx cy cz : AnimationCurve) :
    ∀ (times : List Rat) (prev : Rat × Rat × Rat),
    (trackValuesGo cx cy cz times prev).length = 3 * times.length := by
intro times
induction times with
| nil => intro prev; simp [trackValuesGo]
| cons t rest ih =>
  intro prev
  simp only [trackValuesGo, List.length_cons, ih]
  ring

theorem trackValuesGo_char (cx cy cz : AnimationCurve) :
    ∀ (times : List Rat) (k : Nat) (prev : Rat × Rat × Rat), k < times.length →
    (trackValuesGo cx cy cz times prev).getD (3 * k) 0 =
      axisVal cx (lastSampleValue cx prev.1 (times.take k)) (times.getD k 0) ∧
    (trackValuesGo cx cy cz times prev).getD (3 * k + 1) 0 =
      axisVal cy (lastSampleValue cy prev.2.1 (times.take k)) (times.getD k 0) ∧
    (trackValuesGo cx cy cz times prev).getD (3 * k + 2) 0 =
      axisVal cz (lastSampleValue cz prev.2.2 (times.take k)) (times.getD k 0) := by
intro times
induction times with
| nil => intro k prev hk; simp at hk
| cons t rest ih =>
  intro k prev hk
  cases k with
  | zero =>
    simp only [trackValuesGo, Nat.mul_zero, List.getD_cons_zero, List.getD_cons_succ,
      List.take_zero, List.getD_cons_zero]
    unfold lastSampleValue
    simp [List.find?]
  | succ m =>
    have hm : m < rest.length := by simpa using Nat.lt_of_succ_lt_succ hk
    have h3 : 3 * (m + 1) = 3 * m + 1 + 1 + 1 := by ring
    have h31 : 3 * (m + 1) + 1 = 3 * m + 1 + 1 + 1 + 1 := by ring
    have h32 : 3 * (m + 1) + 2 = 3 * m + 2 + 1 + 1 + 1 := by ring
    simp only [trackValuesGo, h3, h31, h32, List.getD_cons_succ]
    have hih := ih m (axisVal cx prev.1 t, axisVal cy prev.2.1 t, axisVal cz prev.2.2 t) hm
    simp only [List.take_succ_cons, List.getD_cons_succ]
    refine ⟨?_, ?_, ?_⟩
    · rw [lastSampleValue_cons]
      have := hih.1
      simpa using this
    · rw [lastSampleValue_cons]
      have := hih.2.1
      simpa using this
    · rw [lastSampleValue_cons]
      have := hih.2.2
      simpa using this

theorem mergeTimes_spec (l : List Rat) :
    ((match sortAsc l with
      | [] => ([] : List Rat)
      | h :: t => h :: dedupAdj h t).Pairwise (· < ·)) ∧
    (∀ x, (x ∈ (match sortAsc l with
      | [] => ([] : List Rat)
      | h :: t => h :: dedupAdj h t)) ↔ x ∈ l) := by
cases hL : sortAsc l with
| nil =>
  have hperm := sortAsc_perm l
  rw [hL] at hperm
  have hempty := hperm.symm.eq_nil
  subst hempty
  exact ⟨by simp, by simp⟩
| cons h t =>
  have hsorted : (h :: t).Pairwise (· ≤ ·) := by
    rw [← hL]
    exact sortAsc_sorted _
  constructor
  · exact dedupAdj_strict t h hsorted
  · intro x
    rw [dedupAdj_mem t h x, ← hL, (sortAsc_perm _).mem_iff]

/-- **C7.** The vector-track merge: `getTimesForAllAxes` returns the
strictly sorted, duplicate-free union of the three axis curves'
timestamps; `getKeyframeTrackValues` emits exactly 3 values per merged
timestamp; and at merged timestamp `k` each axis takes its curve's sample
(at the first index of that exact time) when one exists and otherwise the
most recent previous sample among the earlier merged timestamps, starting
from the supplied initial value. -/
theorem vector_track_merge (ocx ocy ocz : Option AnimationCurve)
    (cx cy cz : AnimationCurve) (init : Rat × Rat × Rat) :
    ((getTimesForAllAxes ocx ocy ocz).Pairwise (· < ·) ∧
     (∀ t, t ∈ getTimesForAllAxes ocx ocy ocz ↔
       (t ∈ axisTimes ocx ∨ t ∈ axisTimes ocy ∨ t ∈ axisTimes ocz))) ∧
    (∀ times : List Rat,
      (getKeyframeTrackValues times cx cy cz init).length = 3 * times.length) ∧
    (∀ (times : List Rat) (k : Nat), k < times.length →
      (getKeyframeTrackValues times cx cy cz init).getD (3 * k) 0 =
        axisVal cx (lastSampleValue cx init.1 (times.take k)) (times.getD k 0) ∧
      (getKeyframeTrackValues times cx cy cz init).getD (3 * k + 1) 0 =
        axisVal cy (lastSampleValue cy init.2.1 (times.take k)) (times.getD k 0) ∧
      (getKeyframeTrackValues times cx cy cz init).getD (3 * k + 2) 0 =
        axisVal cz (lastSampleValue cz init.2.2 (times.take k)) (times.getD k 0)) := by
refine ⟨?_, fun times => trackValuesGo_length cx cy cz times init,
  fun times k hk => trackValuesGo_char cx cy cz times k init hk⟩
have hspec := mergeTimes_spec (axisTimes ocx ++ axisTimes ocy ++ axisTimes ocz)
refine ⟨hspec.1, fun x => Iff.trans (hspec.2 x) (by simp)⟩

/-- Witness for C7: x-curve sampled at times 0 and 2, y-curve at time 1,
z-curve empty; the merged times are `[0, 1, 2]`, and at merged index 1 the
x axis carries its time-0 value forward while y takes its own sample. -/
theorem vector_track_merge_witness :
    getTimesForAllAxes (some ⟨[0, 2], [10, 20]⟩) (some ⟨[1], [5]⟩) (some ⟨[], []⟩) =
      [0, 1, 2] ∧
    getKeyframeTrackValues [0, 1, 2] ⟨[0, 2], [10, 20]⟩ ⟨[1], [5]⟩ ⟨[], []⟩ (1, 2, 3) =
      [10, 2, 3, 10, 5, 3, 20, 5, 3] ∧
    (getKeyframeTrackValues [0, 1, 2] ⟨[0, 2], [10, 20]⟩ ⟨[1], [5]⟩ ⟨[], []⟩ (1, 2, 3)).getD 3 0 =
      axisVal ⟨[0, 2], [10, 20]⟩
        (lastSampleValue ⟨[0, 2], [10, 20]⟩ 1 ([0, 1, 2].take 1)) ([0, 1, 2].getD 1 0) := by
refine ⟨by decide, by decide, ?_⟩
have h := ((vector_track_merge (some ⟨[0, 2], [10, 20]⟩) (some ⟨[1], [5]⟩) (some ⟨[], []⟩)
    ⟨[0, 2], [10, 20]⟩ ⟨[1], [5]⟩ ⟨[], []⟩ (1, 2, 3)).2.2 [0, 1, 2] 1 (by decide)).1
simpa using h

end FBXAnim

/-! ### glTF accessor decoding (`GLTFParser.loadAccessor`, glb-edge-geometry.ts)

The accessor loader materializes a typed-array view over the resolved
bufferView bytes (or a zero array), wraps it in a `BufferAttribute` (or an
`InterleavedBufferAttribute` through the stride-keyed `InterleavedBuffer`
cache when `byteStride` differs from the tight item size) and, when a
`sparse` block is present, copies the array via `.slice()` whenever the
accessor is bufferView-backed, disables `normalized`, overlays the
`(index, value)` pairs with `setX..setW`, and restores `normalized`.

The model is byte-level: a heap of `ArrayBuffer`s (the resolved
bufferViews, index `i` holding bufferView `i`'s bytes) with typed-array
*views* into it, so aliasing and the `.slice()` copy are represented
faithfully.  Element values are `Rat`; float32 bytes decode to their exact
rational value (NaN/Infinity, which no claim touches, decode as 0), and
float32 stores round to nearest-even.  Out-of-range typed-array writes are
no-ops and out-of-range reads yield the 0 default, matching JS typed-array
index semantics. -/

namespace GLTFAccessor

/-- `WEBGL_TYPE_SIZES` (src/loaders/gltf/constants.ts). -/
def WEBGL_TYPE_SIZES (s : String) : Nat :=
if s = "SCALAR" then 1
else if s = "VEC2" then 2
else if s = "VEC3" then 3
else if s = "VEC4" then 4
else if s = "MAT2" then 4
else if s = "MAT3" then 9
else if s = "MAT4" then 16
else 0

/-- `BYTES_PER_ELEMENT` of `WEBGL_COMPONENT_TYPES[ct]` (5120 `Int8Array`,
5121 `Uint8Array`, 5122 `Int16Array`, 5123 `Uint16Array`, 5125
`Uint32Array`, 5126 `Float32Array`); 0 for an unknown component type. -/
def componentBytes (ct : Nat) : Nat :=
if ct = 5120 then 1
else if ct = 5121 then 1
else if ct = 5122 then 2
else if ct = 5123 then 2
else if ct = 5125 then 4
else if ct = 5126 then 4
else 0

def leBytes (bs : List Nat) : Nat :=
bs.foldr (fun b acc => b + 256 * acc) 0

def toSigned (w : Nat) (n : Nat) : Int :=
if n < 2 ^ (8 * w - 1) then (n : Int) else (n : Int) - 2 ^ (8 * w)

/-- The exact rational value of an IEEE-754 binary32 bit pattern
(non-finite patterns, unused by the claims, map to 0). -/
def f32ValOfBits (n : Nat) : Rat :=
let s : Rat := if n / 2 ^ 31 % 2 = 1 then -1 else 1
let e : Nat := n / 2 ^ 23 % 256
let m : Nat := n % 2 ^ 23
if e = 0 then s * (m : Rat) * (2 : Rat) ^ (-149 : Int)
else if e = 255 then 0
else s * ((2 : Rat) ^ (23 : Nat) + (m : Rat)) * (2 : Rat) ^ ((e : Int) - 150)

def decodeElem (ct : Nat) (bs : List Nat) : Rat :=
if ct = 5120 then (toSigned 1 (leBytes bs) : Rat)
else if ct = 5121 then (leBytes bs : Rat)
else if ct = 5122 then (toSigned 2 (leBytes bs) : Rat)
else if ct = 5123 then (leBytes bs : Rat)
else if ct = 5125 then (leBytes bs : Rat)
else if ct = 5126 then f32ValOfBits (leBytes bs)
else 0

/-- JS integer truncation toward zero (`ToIntegerOrInfinity` for finite
numbers). -/
def jsTrunc (v : Rat) : Int :=
v.num / (v.den : Int)

def natBytesLE (w : Nat) (n : Nat) : List Nat :=
(List.range w).map (fun i => n / 256 ^ i % 256)

/-- Round to nearest, ties to even. -/
def roundNearestEven (x : Rat) : Int :=
let f := ⌊x⌋
let r := x - f
if r < mkRat 1 2 then f
else if mkRat 1 2 < r then f + 1
else if f % 2 = 0 then f else f + 1

/-- The IEEE-754 binary32 bit pattern nearest to a rational (overflow maps
to the infinity pattern). -/
def f32BitsOfVal (v : Rat) : Nat :=
if v = 0 then 0
else
  let s : Nat := if v < 0 then 1 else 0
  let a := |v|
  if a < (2 : Rat) ^ (-126 : Int) then
    let m := roundNearestEven (a * (2 : Rat) ^ (149 : Int))
    if m ≥ 2 ^ 23 then s * 2 ^ 31 + 1 * 2 ^ 23
    else s * 2 ^ 31 + m.toNat
  else
    let e : Int := (List.range 254).foldl
      (fun acc i => let e : Int := (i : Int) - 126; if (2 : Rat) ^ e ≤ a then e else acc) (-126)
    let m := roundNearestEven (a * (2 : Rat) ^ (23 - e) )
    let em := if m = 2 ^ 24 then (e + 1, (2 ^ 23 : Int)) else (e, m)
    if em.1 > 127 then s * 2 ^ 31 + 255 * 2 ^ 23
    else s * 2 ^ 31 + (em.1 + 127).toNat * 2 ^ 23 + (em.2.toNat - 2 ^ 23)

def encodeElem (ct : Nat) (v : Rat) : List Nat :=
if ct = 5120 ∨ ct = 5121 then natBytesLE 1 ((jsTrunc v).emod 256).toNat
else if ct = 5122 ∨ ct = 5123 then natBytesLE 2 ((jsTrunc v).emod 65536).toNat
else if ct = 5125 then natBytesLE 4 ((jsTrunc v).emod 4294967296).toNat
else if ct = 5126 then natBytesLE 4 (f32BitsOfVal v)
else []

/-- The heap of resolved `ArrayBuffer`s; slot `i` holds the bytes of
resolved bufferView `i`, later slots hold buffers allocated during
decoding (zero arrays and `.slice()` copies). -/
abbrev Heap := List (List Nat)

def bufGet (h : Heap) (i : Nat) : List Nat :=
h.getD i []

def bufSet (h : Heap) (i : Nat) (b : List Nat) : Heap :=
h.set i b

/-- A typed-array view: component type, heap buffer, byte offset, length
in elements. -/
structure TA where
ctype : Nat
bufId : Nat
byteOffset : Nat
length : Nat
deriving DecidableEq, Repr

/-- The bytes of element `i` of a view (0-padded out of bounds, as JS
reads yield `undefined`/0 in the arithmetic the claims exercise). -/
def taElemBytes (h : Heap) (ta : TA) (i : Nat) : List Nat :=
(List.range (componentBytes ta.ctype)).map
  (fun k => (bufGet h ta.bufId).getD (ta.byteOffset + i * componentBytes ta.ctype + k) 0)

def taRead (h : Heap) (ta : TA) (i : Nat) : Rat :=
decodeElem ta.ctype (taElemBytes h ta i)

def spliceBytes (b : List Nat) (off : Nat) (new : List Nat) : List Nat :=
b.take off ++ new ++ b.drop (off + new.length)

/-- Typed-array element store: bounds-checked (JS out-of-range writes are
ignored). -/
def taWrite (h : Heap) (ta : TA) (i : Nat) (v : Rat) : Heap :=
if i < ta.length then
  bufSet h ta.bufId
    (spliceBytes (bufGet h ta.bufId) (ta.byteOffset + i * componentBytes ta.ctype)
      (encodeElem ta.ctype v))
else h

/-- `TypedArray.prototype.slice()`: copy the viewed region into a fresh
buffer. -/
def taSlice (h : Heap) (ta : TA) : Heap × TA :=
let bytes := (List.range (ta.length * componentBytes ta.ctype)).map
  (fun p => (bufGet h ta.bufId).getD (ta.byteOffset + p) 0)
(h ++ [bytes], ⟨ta.ctype, h.length, 0, ta.length⟩)

/-- `new TypedArray(len)`: a fresh zero buffer. -/
def taNew (h : Heap) (ct len : Nat) : Heap × TA :=
(h ++ [List.replicate (len * componentBytes ct) 0], ⟨ct, h.length, 0, len⟩)

structure BufferAttribute where
array : TA
itemSize : Nat
normalized : Bool
deriving DecidableEq, Repr

structure InterleavedBuffer where
array : TA
stride : Nat
deriving DecidableEq, Repr

structure InterleavedBufferAttribute where
data : InterleavedBuffer
itemSize : Nat
offset : Nat
normalized : Bool
deriving DecidableEq, Repr

inductive Attr where
| ba : BufferAttribute → Attr
| iba : InterleavedBufferAttribute → Attr
deriving DecidableEq, Repr

/-- `MathUtils.denormalize` (float → integer range), used by
`BufferAttribute.setX` when the attribute is normalized; `Math.round`
rounds half toward `+∞`. -/
def jsRound (x : Rat) : Rat :=
(⌊x + mkRat 1 2⌋ : Int)

def mathDenormalize (ct : Nat) (v : Rat) : Rat :=
if ct = 5126 then v
else if ct = 5125 then jsRound (v * 4294967295)
else if ct = 5123 then jsRound (v * 65535)
else if ct = 5121 then jsRound (v * 255)
else if ct = 5122 then jsRound (v * 32767)
else if ct = 5120 then jsRound (v * 127)
else v

/-- `BufferAttribute.setX/Y/Z/W` (`comp` selects the component): JS
applies `denormalize` when `normalized` is set, then stores. -/
def baSetComponent (h : Heap) (attr : BufferAttribute) (index comp : Nat) (x : Rat) : Heap :=
let x := if attr.normalized then mathDenormalize attr.array.ctype x else x
taWrite h attr.array (index * attr.itemSize + comp) x

/-- Raw stored element component of the decoded output.  Both runs that
every claim compares carry the same `normalized` flag, so composing with
the read-side `normalize` scaling preserves all stated (in)equalities. -/
def attrElem (h : Heap) : Attr → Nat → Nat → Rat
| Attr.ba a, i, c => taRead h a.array (i * a.itemSize + c)
| Attr.iba a, i, c => taRead h a.data.array (i * a.data.stride + a.offset + c)

def attrArray : Attr → TA
| Attr.ba a => a.array
| Attr.iba a => a.data.array

def attrItemSize : Attr → Nat
| Attr.ba a => a.itemSize
| Attr.iba a => a.itemSize

def attrNormalized : Attr → Bool
| Attr.ba a => a.normalized
| Attr.iba a => a.normalized

structure SparseIndicesDef where
bufferView : Nat
byteOffset : Option Nat
componentType : Nat
deriving DecidableEq, Repr

structure SparseValuesDef where
bufferView : Nat
byteOffset : Option Nat
deriving DecidableEq, Repr

structure SparseDef where
count : Nat
indices : SparseIndicesDef
values : SparseValuesDef
deriving DecidableEq, Repr

structure AccessorDef where
bufferView : Option Nat
byteOffset : Option Nat
componentType : Nat
count : Nat
type : String
normalized : Bool
sparse : Option SparseDef
deriving DecidableEq, Repr

structure BufferViewDef where
byteStride : Option Nat
deriving DecidableEq, Repr

structure GLTFJson where
accessors : List AccessorDef
bufferViews : List BufferViewDef
deriving DecidableEq, Repr

/-- Parser state: the buffer heap plus the `InterleavedBuffer` slice
cache. -/
structure GState where
heap : Heap
cache : List (String × InterleavedBuffer)
deriving DecidableEq, Repr

def ibCacheGet (c : List (String × InterleavedBuffer)) (k : String) : Option InterleavedBuffer :=
(c.find? (fun p => p.1 == k)).map Prod.snd

/-- One iteration of the sparse overlay loop: decode the target index,
then `setX`/`setY`/`setZ`/`setW` for the present components (negative or
out-of-range indices fall through JS's ignored typed-array writes). -/
def sparseWriteOne (ba : BufferAttribute) (indicesTA valuesTA : TA) (itemSize : Nat)
    (h : Heap) (i : Nat) : Heap :=
let idx := jsTrunc (taRead h indicesTA i)
if idx < 0 then h
else
  (List.range (min itemSize 4)).foldl
    (fun hh c => baSetComponent hh ba idx.toNat c (taRead hh valuesTA (i * itemSize + c))) h

def sparseWrites (ba : BufferAttribute) (indicesTA valuesTA : TA) (itemSize : Nat)
    (h : Heap) (count : Nat) : Heap :=
(List.range count).foldl (sparseWriteOne ba indicesTA valuesTA itemSize) h

/-- `GLTFParser.loadAccessor`.  The resolved bufferView for index `i` is
heap slot `i` (`getDependency('bufferView', i)` is memoized, so all
accessors share the same resolved buffer object).  `none` models the
thrown errors (missing accessor, `itemSize ≥ 5` in a sparse overlay). -/
def loadAccessor (json : GLTFJson) (st : GState) (accessorIndex : Nat) :
    Option (GState × Attr) :=
match json.accessors.get? accessorIndex with
| none => none
| some accessorDef =>
  if accessorDef.bufferView = none ∧ accessorDef.sparse = none then
    let itemSize := WEBGL_TYPE_SIZES accessorDef.type
    let hArr := taNew st.heap accessorDef.componentType (accessorDef.count * itemSize)
    some ({ st with heap := hArr.1 }, Attr.ba ⟨hArr.2, itemSize, accessorDef.normalized⟩)
  else
    let itemSize := WEBGL_TYPE_SIZES accessorDef.type
    let elementBytes := componentBytes accessorDef.componentType
    let itemBytes := elementBytes * itemSize
    let byteOffset := accessorDef.byteOffset.getD 0
    let byteStride := match accessorDef.bufferView with
      | some bv => (json.bufferViews.getD bv ⟨none⟩).byteStride
      | none => none
    let normalized := accessorDef.normalized
    let interleaved : Bool := match byteStride with
      | some s => s != 0 && s != itemBytes
      | none => false
    let stAttr : GState × Attr :=
      if interleaved then
        let s := byteStride.getD 0
        let bv := accessorDef.bufferView.getD 0
        let ibSlice := byteOffset / s
        let ibCacheKey := "InterleavedBuffer:" ++ toString bv ++ ":" ++
          toString accessorDef.componentType ++ ":" ++ toString ibSlice ++ ":" ++
          toString accessorDef.count
        match ibCacheGet st.cache ibCacheKey with
        | some ib =>
          (st, Attr.iba ⟨ib, itemSize, (byteOffset % s) / elementBytes, normalized⟩)
        | none =>
          let array : TA := ⟨accessorDef.componentType, bv, ibSlice * s,
            accessorDef.count * s / elementBytes⟩
          let ib : InterleavedBuffer := ⟨array, s / elementBytes⟩
          ({ st with cache := st.cache ++ [(ibCacheKey, ib)] },
           Attr.iba ⟨ib, itemSize, (byteOffset % s) / elementBytes, normalized⟩)
      else
        match accessorDef.bufferView with
        | none =>
          let hArr := taNew st.heap accessorDef.componentType (accessorDef.count * itemSize)
          ({ st with heap := hArr.1 }, Attr.ba ⟨hArr.2, itemSize, normalized⟩)
        | some bv =>
          (st, Attr.ba ⟨⟨accessorDef.componentType, bv, byteOffset, accessorDef.count * itemSize⟩,
            itemSize, normalized⟩)
    match accessorDef.sparse with
    | none => some stAttr
    | some sp =>
      if 5 ≤ itemSize ∧ 0 < sp.count then none
      else
        let st1 := stAttr.1
        let attr := stAttr.2
        let byteOffsetIndices := sp.indices.byteOffset.getD 0
        let byteOffsetValues := sp.values.byteOffset.getD 0
        let indicesTA : TA := ⟨sp.indices.componentType, sp.indices.bufferView,
          byteOffsetIndices, sp.count * WEBGL_TYPE_SIZES "SCALAR"⟩
        let valuesTA : TA := ⟨accessorDef.componentType, sp.values.bufferView,
          byteOffsetValues, sp.count * itemSize⟩
        let hBa : Heap × BufferAttribute :=
          if accessorDef.bufferView ≠ none then
            let hc := taSlice st1.heap (attrArray attr)
            (hc.1, ⟨hc.2, attrItemSize attr, attrNormalized attr⟩)
          else
            (st1.heap, match attr with
              | Attr.ba a => a
              | Attr.iba a => ⟨a.data.array, a.itemSize, a.normalized⟩)
        let ba1 : BufferAttribute := { hBa.2 with normalized := false }
        let h2 := sparseWrites ba1 indicesTA valuesTA itemSize hBa.1 sp.count
        some ({ st1 with heap := h2 }, Attr.ba { ba1 with normalized := normalized })

/-- The decoded sparse target indices of an accessor (over the initial
heap; the overlay writes only touch freshly allocated buffers, so these
reads are stable during the loop). -/
def sparseIndexList (st : GState) (sp : SparseDef) : List Int :=
(List.range sp.count).map (fun i =>
  jsTrunc (taRead st.heap
    ⟨sp.indices.componentType, sp.indices.bufferView, sp.indices.byteOffset.getD 0,
      sp.count * WEBGL_TYPE_SIZES "SCALAR"⟩ i))

/-- Remove the sparse block of accessor `ai` (the "same accessor without
the sparse block" of the claim). -/
def jsonWithoutSparse (json : GLTFJson) (ai : Nat) : GLTFJson :=
let acc := json.accessors.getD ai ⟨none, none, 0, 0, "", false, none⟩
let acc2 := { acc with sparse := none }
{ json with accessors := json.accessors.set ai acc2 }

theorem encodeElem_length (ct : Nat) (v : Rat) :
    (encodeElem ct v).length = componentBytes ct := by
unfold encodeElem componentBytes natBytesLE
split_ifs with h1 h2 h3 h4 h5 h6 h7 h8 h9 h10 <;> simp_all

theorem length_spliceBytes (b : List Nat) (off : Nat) (new : List Nat)
    (hin : off + new.length ≤ b.length) :
    (spliceBytes b off new).length = b.length := by
unfold spliceBytes
rw [List.length_append, List.length_append, List.length_take, List.length_drop]
omega

theorem getD_spliceBytes (b : List Nat) (off : Nat) (new : List Nat) (p : Nat)
    (hin : off + new.length ≤ b.length) :
    (spliceBytes b off new).getD p 0 =
      if off ≤ p ∧ p < off + new.length then new.getD (p - off) 0 else b.getD p 0 := by
unfold spliceBytes
have htl : (b.take off).length = off := by
  rw [List.length_take]
  omega
have hl1 : (b.take off ++ new).length = off + new.length := by
  rw [List.length_append, htl]
simp only [List.getD_eq_getElem?_getD]
by_cases h1 : p < off
· rw [if_neg (by omega)]
  rw [List.getElem?_append_left (by rw [hl1]; omega)]
  rw [List.getElem?_append_left (by rw [htl]; omega)]
  rw [List.getElem?_take, if_pos h1]
· push_neg at h1
  by_cases h2 : p < off + new.length
  · rw [if_pos ⟨h1, h2⟩]
    rw [List.getElem?_append_left (by rw [hl1]; omega)]
    rw [List.getElem?_append_right (by rw [htl]; omega), htl]
  · rw [if_neg (by omega)]
    rw [List.getElem?_append_right (by rw [hl1]; omega), hl1]
    rw [List.getElem?_drop]
    have hidx : off + new.length + (p - (off + new.length)) = p := by omega
    rw [hidx]

theorem bufGet_bufSet_ne (h : Heap) (i j : Nat) (b : List Nat) (hne : i ≠ j) :
    bufGet (bufSet h i b) j = bufGet h j := by
unfold bufGet bufSet
rw [List.getD_eq_getElem?_getD, List.getD_eq_getElem?_getD, List.getElem?_set_ne hne]

theorem bufGet_bufSet_self (h : Heap) (i : Nat) (b : List Nat) (hi : i < h.length) :
    bufGet (bufSet h i b) i = b := by
unfold bufGet bufSet
rw [List.getD_eq_getElem?_getD, List.getElem?_set_self hi]
rfl

theorem bufGet_append_lt (h : Heap) (b : List Nat) (j : Nat) (hj : j < h.length) :
    bufGet (h ++ [b]) j = bufGet h j := by
unfold bufGet
rw [List.getD_eq_getElem?_getD, List.getD_eq_getElem?_getD, List.getElem?_append_left hj]

theorem bufGet_append_self (h : Heap) (b : List Nat) :
    bufGet (h ++ [b]) h.length = b := by
unfold bufGet
rw [List.getD_eq_getElem?_getD, List.getElem?_append_right (le_refl _)]
simp

theorem bufGet_taWrite_ne (h : Heap) (ta : TA) (i : Nat) (v : Rat) (j : Nat)
    (hj : j ≠ ta.bufId) :
    bufGet (taWrite h ta i v) j = bufGet h j := by
unfold taWrite
by_cases hg : i < ta.length
· rw [if_pos hg]
  exact bufGet_bufSet_ne _ _ _ _ (fun he => hj he.symm)
· rw [if_neg hg]

theorem bufLen_taWrite (h : Heap) (ta : TA) (i : Nat) (v : Rat)
    (hid : ta.bufId < h.length)
    (hb : ta.byteOffset + ta.length * componentBytes ta.ctype ≤ (bufGet h ta.bufId).length) :
    (bufGet (taWrite h ta i v) ta.bufId).length = (bufGet h ta.bufId).length := by
unfold taWrite
by_cases hg : i < ta.length
· rw [if_pos hg, bufGet_bufSet_self _ _ _ hid]
  apply length_spliceBytes
  rw [encodeElem_length]
  have : (i + 1) * componentBytes ta.ctype ≤ ta.length * componentBytes ta.ctype :=
    Nat.mul_le_mul_right _ hg
  nlinarith [Nat.mul_le_mul_right (componentBytes ta.ctype) hg]
· rw [if_neg hg]

theorem taElemBytes_taWrite_ne (h : Heap) (ta : TA) (i : Nat) (v : Rat) (f : Nat)
    (hif : i ≠ f)
    (hid : ta.bufId < h.length)
    (hb : ta.byteOffset + ta.length * componentBytes ta.ctype ≤ (bufGet h ta.bufId).length) :
    taElemBytes (taWrite h ta i v) ta f = taElemBytes h ta f := by
unfold taWrite
by_cases hg : i < ta.length
· rw [if_pos hg]
  unfold taElemBytes
  apply List.map_congr_left
  intro k hk
  have hkw : k < componentBytes ta.ctype := List.mem_range.mp hk
  rw [bufGet_bufSet_self _ _ _ hid]
  rw [getD_spliceBytes]
  · rw [if_neg]
    rw [encodeElem_length]
    intro hcon
    obtain ⟨hc1, hc2⟩ := hcon
    rcases Nat.lt_or_ge i f with hlt | hge
    · have : (i + 1) * componentBytes ta.ctype ≤ f * componentBytes ta.ctype :=
        Nat.mul_le_mul_right _ hlt
      nlinarith
    · have hgt : f < i := lt_of_le_of_ne hge (fun he => hif he.symm)
      have : (f + 1) * componentBytes ta.ctype ≤ i * componentBytes ta.ctype :=
        Nat.mul_le_mul_right _ hgt
      nlinarith
  · rw [encodeElem_length]
    have := Nat.mul_le_mul_right (componentBytes ta.ctype) hg
    nlinarith
· rw [if_neg hg]

theorem taRead_congr (h h' : Heap) (ta : TA)
    (heq : bufGet h' ta.bufId = bufGet h ta.bufId) (i : Nat) :
    taRead h' ta i = taRead h ta i := by
unfold taRead taElemBytes
rw [heq]

theorem heapLen_taWrite (h : Heap) (ta : TA) (i : Nat) (v : Rat) :
    (taWrite h ta i v).length = h.length := by
unfold taWrite
by_cases hg : i < ta.length
· rw [if_pos hg]
  unfold bufSet
  exact List.length_set _ _ _
· rw [if_neg hg]

theorem bufGet_setFold_ne (ba : BufferAttribute) (valuesTA : TA) (idxN base : Nat)
    (j : Nat) (hj : j ≠ ba.array.bufId) :
    ∀ (cs : List Nat) (hh : Heap),
    bufGet (cs.foldl
      (fun hh c => baSetComponent hh ba idxN c (taRead hh valuesTA (base + c))) hh) j =
      bufGet hh j := by
intro cs
induction cs with
| nil => intro hh; rfl
| cons c rest ih =>
  intro hh
  rw [List.foldl_cons, ih]
  unfold baSetComponent
  exact bufGet_taWrite_ne _ _ _ _ _ hj

theorem bufGet_sparseWriteOne_ne (ba : BufferAttribute) (indicesTA valuesTA : TA)
    (itemSize : Nat) (h : Heap) (i : Nat) (j : Nat) (hj : j ≠ ba.array.bufId) :
    bufGet (sparseWriteOne ba indicesTA valuesTA itemSize h i) j = bufGet h j := by
unfold sparseWriteOne
by_cases hneg : jsTrunc (taRead h indicesTA i) < 0
· rw [if_pos hneg]
· rw [if_neg hneg]
  exact bufGet_setFold_ne ba valuesTA _ _ j hj _ h

theorem bufGet_sparseWrites_ne (ba : BufferAttribute) (indicesTA valuesTA : TA)
    (itemSize : Nat) (j : Nat) (hj : j ≠ ba.array.bufId) :
    ∀ (count : Nat) (h : Heap),
    bufGet (sparseWrites ba indicesTA valuesTA itemSize h count) j = bufGet h j := by
have key : ∀ (l : List Nat) (h : Heap),
    bufGet (l.foldl (sparseWriteOne ba indicesTA valuesTA itemSize) h) j = bufGet h j := by
  intro l
  induction l with
  | nil => intro h; rfl
  | cons i rest ih =>
    intro h
    rw [List.foldl_cons, ih, bufGet_sparseWriteOne_ne _ _ _ _ _ _ _ hj]
intro count h
exact key (List.range count) h

/-- The invariant carried through the sparse overlay writes: untouched
buffers pinned, target buffer length pinned, the observed element bytes
pinned, heap size pinned. -/
def WInv (tgt : TA) (f : Nat) (h0 hh : Heap) : Prop :=
(∀ j, j ≠ tgt.bufId → bufGet hh j = bufGet h0 j) ∧
(bufGet hh tgt.bufId).length = (bufGet h0 tgt.bufId).length ∧
taElemBytes hh tgt f = taElemBytes h0 tgt f ∧
hh.length = h0.length

theorem winv_refl (tgt : TA) (f : Nat) (h0 : Heap) : WInv tgt f h0 h0 :=
⟨fun _ _ => rfl, rfl, rfl, rfl⟩

theorem winv_taWrite (tgt : TA) (f : Nat) (h0 hh : Heap) (i : Nat) (v : Rat)
    (hif : i ≠ f)
    (htid : tgt.bufId < h0.length)
    (hb : tgt.byteOffset + tgt.length * componentBytes tgt.ctype ≤ (bufGet h0 tgt.bufId).length)
    (hinv : WInv tgt f h0 hh) :
    WInv tgt f h0 (taWrite hh tgt i v) := by
obtain ⟨hA, hB, hC, hD⟩ := hinv
have htid' : tgt.bufId < hh.length := by rw [hD]; exact htid
have hb' : tgt.byteOffset + tgt.length * componentBytes tgt.ctype ≤
    (bufGet hh tgt.bufId).length := by rw [hB]; exact hb
refine ⟨?_, ?_, ?_, ?_⟩
· intro j hj
  rw [bufGet_taWrite_ne _ _ _ _ _ hj]
  exact hA j hj
· rw [bufLen_taWrite _ _ _ _ htid' hb']
  exact hB
· rw [taElemBytes_taWrite_ne _ _ _ _ _ hif htid' hb']
  exact hC
· rw [heapLen_taWrite]
  exact hD

theorem winv_setFold (ba : BufferAttribute) (valuesTA : TA) (idxN base : Nat)
    (f : Nat) (h0 : Heap)
    (hflat : ∀ c, c < ba.itemSize → idxN * ba.itemSize + c ≠ f)
    (htid : ba.array.bufId < h0.length)
    (hb : ba.array.byteOffset + ba.array.length * componentBytes ba.array.ctype ≤
      (bufGet h0 ba.array.bufId).length) :
    ∀ (cs : List Nat), (∀ c ∈ cs, c < ba.itemSize) → ∀ (hh : Heap),
    WInv ba.array f h0 hh →
    WInv ba.array f h0 (cs.foldl
      (fun hh c => baSetComponent hh ba idxN c (taRead hh valuesTA (base + c))) hh) := by
intro cs
induction cs with
| nil => intro _ hh hinv; exact hinv
| cons c rest ih =>
  intro hcs hh hinv
  rw [List.foldl_cons]
  refine ih (fun c2 hc2 => hcs c2 (List.mem_cons_of_mem _ hc2)) _ ?_
  unfold baSetComponent
  exact winv_taWrite _ _ _ _ _ _ (hflat c (hcs c (List.mem_cons_self _ _))) htid hb hinv

theorem winv_sparseWriteOne (ba : BufferAttribute) (indicesTA valuesTA : TA)
    (itemSize : Nat) (f elemIdx : Nat) (h0 : Heap) (i : Nat)
    (hisize : ba.itemSize = itemSize)
    (hf : ∃ cc, cc < ba.itemSize ∧ f = elemIdx * ba.itemSize + cc)
    (hind : indicesTA.bufId ≠ ba.array.bufId)
    (hidx : jsTrunc (taRead h0 indicesTA i) ≠ (elemIdx : Int))
    (htid : ba.array.bufId < h0.length)
    (hb : ba.array.byteOffset + ba.array.length * componentBytes ba.array.ctype ≤
      (bufGet h0 ba.array.bufId).length) :
    ∀ (hh : Heap), WInv ba.array f h0 hh →
    WInv ba.array f h0 (sparseWriteOne ba indicesTA valuesTA itemSize hh i) := by
intro hh hinv
have hread : taRead hh indicesTA i = taRead h0 indicesTA i :=
  taRead_congr _ _ _ (hinv.1 _ hind) i
unfold sparseWriteOne
rw [hread]
by_cases hneg : jsTrunc (taRead h0 indicesTA i) < 0
· rw [if_pos hneg]
  exact hinv
· rw [if_neg hneg]
  refine winv_setFold ba valuesTA _ _ f h0 ?_ htid hb _ ?_ hh hinv
  · intro c hc
    obtain ⟨cc, hcc, hfe⟩ := hf
    have hne : (jsTrunc (taRead h0 indicesTA i)).toNat ≠ elemIdx := by
      intro he
      apply hidx
      rw [← he]
      exact (Int.toNat_of_nonneg (not_lt.mp hneg)).symm
    rw [hfe]
    intro hcon
    rcases Nat.lt_or_ge (jsTrunc (taRead h0 indicesTA i)).toNat elemIdx with hlt | hge
    · have h1 : ((jsTrunc (taRead h0 indicesTA i)).toNat + 1) * ba.itemSize ≤
          elemIdx * ba.itemSize := Nat.mul_le_mul_right _ hlt
      nlinarith
    · have hgt : elemIdx < (jsTrunc (taRead h0 indicesTA i)).toNat :=
        lt_of_le_of_ne hge (fun he => hne he.symm)
      have h1 : (elemIdx + 1) * ba.itemSize ≤
          (jsTrunc (taRead h0 indicesTA i)).toNat * ba.itemSize := Nat.mul_le_mul_right _ hgt
      nlinarith
  · intro c hc
    have := List.mem_range.mp hc
    rw [hisize]
    omega

theorem winv_sparseWrites (ba : BufferAttribute) (indicesTA valuesTA : TA)
    (itemSize : Nat) (f elemIdx : Nat) (h0 : Heap)
    (hisize : ba.itemSize = itemSize)
    (hf : ∃ cc, cc < ba.itemSize ∧ f = elemIdx * ba.itemSize + cc)
    (hind : indicesTA.bufId ≠ ba.array.bufId)
    (htid : ba.array.bufId < h0.length)
    (hb : ba.array.byteOffset + ba.array.length * componentBytes ba.array.ctype ≤
      (bufGet h0 ba.array.bufId).length)
    (count : Nat)
    (hidx : ∀ i, i < count → jsTrunc (taRead h0 indicesTA i) ≠ (elemIdx : Int)) :
    WInv ba.array f h0 (sparseWrites ba indicesTA valuesTA itemSize h0 count) := by
unfold sparseWrites
have key : ∀ (l : List Nat), (∀ i ∈ l, jsTrunc (taRead h0 indicesTA i) ≠ (elemIdx : Int)) →
    ∀ (hh : Heap), WInv ba.array f h0 hh →
    WInv ba.array f h0 (l.foldl (sparseWriteOne ba indicesTA valuesTA itemSize) hh) := by
  intro l
  induction l with
  | nil => intro _ hh hinv; exact hinv
  | cons i rest ih =>
    intro hl hh hinv
    rw [List.foldl_cons]
    refine ih (fun i2 hi2 => hl i2 (List.mem_cons_of_mem _ hi2)) _ ?_
    exact winv_sparseWriteOne ba indicesTA valuesTA itemSize f elemIdx h0 i hisize hf hind
      (hl i (List.mem_cons_self _ _)) htid hb hh hinv
exact key (List.range count) (fun i hi => hidx i (List.mem_range.mp hi)) h0 (winv_refl _ _ _)

theorem loadAccessor_eval_sparse (json : GLTFJson) (st : GState) (ai : Nat)
    (acc : AccessorDef) (bv : Nat) (sp : SparseDef)
    (hacc : json.accessors.get? ai = some acc)
    (hbv : acc.bufferView = some bv)
    (hsp : acc.sparse = some sp)
    (hni : (json.bufferViews.getD bv ⟨none⟩).byteStride = none ∨
      (json.bufferViews.getD bv ⟨none⟩).byteStride = some 0 ∨
      (json.bufferViews.getD bv ⟨none⟩).byteStride =
        some (componentBytes acc.componentType * WEBGL_TYPE_SIZES acc.type))
    (his : WEBGL_TYPE_SIZES acc.type ≤ 4) :
    loadAccessor json st ai = some
      ((⟨sparseWrites
          ⟨⟨acc.componentType, st.heap.length, 0, acc.count * WEBGL_TYPE_SIZES acc.type⟩,
            WEBGL_TYPE_SIZES acc.type, false⟩
          ⟨sp.indices.componentType, sp.indices.bufferView, sp.indices.byteOffset.getD 0,
            sp.count * WEBGL_TYPE_SIZES "SCALAR"⟩
          ⟨acc.componentType, sp.values.bufferView, sp.values.byteOffset.getD 0,
            sp.count * WEBGL_TYPE_SIZES acc.type⟩
          (WEBGL_TYPE_SIZES acc.type)
          (taSlice st.heap ⟨acc.componentType, bv, acc.byteOffset.getD 0,
            acc.count * WEBGL_TYPE_SIZES acc.type⟩).1
          sp.count, st.cache⟩ : GState),
       Attr.ba ⟨⟨acc.componentType, st.heap.length, 0, acc.count * WEBGL_TYPE_SIZES acc.type⟩,
         WEBGL_TYPE_SIZES acc.type, acc.normalized⟩) := by
unfold loadAccessor
rw [hacc]
simp only [hbv, hsp]
rw [if_neg (by simp)]
have hns : ¬ (5 ≤ WEBGL_TYPE_SIZES acc.type ∧ 0 < sp.count) := by
  intro hcon
  omega
simp only [List.getD_eq_getElem?_getD] at hni
rcases hni with h | h | h <;>
  simp [h, if_neg hns, taSlice, taNew, attrArray, attrItemSize, attrNormalized]

theorem loadAccessor_eval_dense (json : GLTFJson) (st : GState) (ai : Nat)
    (acc : AccessorDef) (bv : Nat)
    (hacc : json.accessors.get? ai = some acc)
    (hbv : acc.bufferView = some bv)
    (hsp : acc.sparse = none)
    (hni : (json.bufferViews.getD bv ⟨none⟩).byteStride = none ∨
      (json.bufferViews.getD bv ⟨none⟩).byteStride = some 0 ∨
      (json.bufferViews.getD bv ⟨none⟩).byteStride =
        some (componentBytes acc.componentType * WEBGL_TYPE_SIZES acc.type)) :
    loadAccessor json st ai = some
      (st, Attr.ba ⟨⟨acc.componentType, bv, acc.byteOffset.getD 0,
        acc.count * WEBGL_TYPE_SIZES acc.type⟩, WEBGL_TYPE_SIZES acc.type, acc.normalized⟩) := by
unfold loadAccessor
rw [hacc]
simp only [hbv, hsp]
rw [if_neg (by simp)]
simp only [List.getD_eq_getElem?_getD] at hni
rcases hni with h | h | h <;> simp [h]

theorem jsonWithoutSparse_get (json : GLTFJson) (ai : Nat) (acc : AccessorDef)
    (hacc : json.accessors.get? ai = some acc) :
    (jsonWithoutSparse json ai).accessors.get? ai = some { acc with sparse := none } := by
unfold jsonWithoutSparse
have hlt : ai < json.accessors.length := by
  by_contra hge
  push_neg at hge
  rw [List.get?_eq_none.mpr hge] at hacc
  simp at hacc
have hgd : json.accessors.getD ai ⟨none, none, 0, 0, "", false, none⟩ = acc := by
  rw [List.getD_eq_getElem?_getD, ← List.get?_eq_getElem?, hacc]
  rfl
simp only [hgd]
rw [List.get?_eq_getElem?, List.getElem?_set_self (by exact hlt)]

theorem jsonWithoutSparse_bufferViews (json : GLTFJson) (ai : Nat) :
    (jsonWithoutSparse json ai).bufferViews = json.bufferViews := rfl

theorem getD_map_range (n : Nat) (g : Nat → Nat) (p : Nat) :
    (((List.range n).map g).getD p 0) = if p < n then g p else 0 := by
rw [List.getD_eq_getElem?_getD, List.getElem?_map]
by_cases hp : p < n
· rw [List.getElem?_range hp, if_pos hp]
  rfl
· rw [if_neg hp, List.getElem?_eq_none (by simpa using hp)]
  rfl

theorem taElemBytes_slice (h : Heap) (ta : TA) (f : Nat) (hf : f < ta.length) :
    taElemBytes (taSlice h ta).1 (taSlice h ta).2 f = taElemBytes h ta f := by
unfold taSlice taElemBytes
simp only []
apply List.map_congr_left
intro k hk
have hkw : k < componentBytes ta.ctype := List.mem_range.mp hk
rw [bufGet_append_self]
rw [getD_map_range]
rw [if_pos]
· simp [Nat.add_assoc]
· have h1 : (f + 1) * componentBytes ta.ctype ≤ ta.length * componentBytes ta.ctype :=
    Nat.mul_le_mul_right _ hf
  nlinarith

theorem taRead_of_taElemBytes_eq (h h' : Heap) (ta : TA) (f : Nat)
    (he : taElemBytes h' ta f = taElemBytes h ta f) : taRead h' ta f = taRead h ta f := by
unfold taRead
rw [he]

section
set_option maxHeartbeats 1600000

/-- **C6 (amended).** When a bufferView-backed, non-interleaved accessor
carries a sparse block (with an item size within the supported 1..4 and a
resolved indices bufferView), the overlay changes only the listed
elements: both runs succeed, the returned attribute's `normalized` flag is
the accessor's own (restored after the overlay writes, which happen with
the flag disabled), and every element component whose index is not in the
decoded sparse index list is identical to the run of the same accessor
with the sparse block removed.  (As stated the claim is false for
interleaved accessors — see the counterexample — because the sparse path
rebuilds a dense attribute from the whole interleaved slab.) -/
theorem loadAccessor_sparse_changes_only_listed
    (json : GLTFJson) (st : GState) (ai : Nat) (acc : AccessorDef) (bv : Nat) (sp : SparseDef)
    (hacc : json.accessors.get? ai = some acc)
    (hbv : acc.bufferView = some bv)
    (hsp : acc.sparse = some sp)
    (hni : (json.bufferViews.getD bv ⟨none⟩).byteStride = none ∨
      (json.bufferViews.getD bv ⟨none⟩).byteStride = some 0 ∨
      (json.bufferViews.getD bv ⟨none⟩).byteStride =
        some (componentBytes acc.componentType * WEBGL_TYPE_SIZES acc.type))
    (his : WEBGL_TYPE_SIZES acc.type ≤ 4)
    (hind : sp.indices.bufferView < st.heap.length) :
    ∃ st1 attr1 attr2,
      loadAccessor json st ai = some (st1, attr1) ∧
      loadAccessor (jsonWithoutSparse json ai) st ai = some (st, attr2) ∧
      attrNormalized attr1 = acc.normalized ∧
      attrNormalized attr2 = acc.normalized ∧
      (∀ i, i < acc.count → ((i : Int) ∉ sparseIndexList st sp) →
        ∀ c, c < WEBGL_TYPE_SIZES acc.type →
          attrElem st1.heap attr1 i c = attrElem st.heap attr2 i c) := by
have hrun1 := loadAccessor_eval_sparse json st ai acc bv sp hacc hbv hsp hni his
have hrun2 := loadAccessor_eval_dense (jsonWithoutSparse json ai) st ai
  { acc with sparse := none } bv (jsonWithoutSparse_get json ai acc hacc) hbv rfl hni
refine ⟨_, _, _, hrun1, hrun2, rfl, rfl, ?_⟩
intro i hi hnotin c hc
set w := componentBytes acc.componentType with hw
set is := WEBGL_TYPE_SIZES acc.type with his2
set baseTA : TA := ⟨acc.componentType, bv, acc.byteOffset.getD 0, acc.count * is⟩ with hbase
set copyTA : TA := ⟨acc.componentType, st.heap.length, 0, acc.count * is⟩ with hcopyTA
set indicesTA : TA := ⟨sp.indices.componentType, sp.indices.bufferView,
  sp.indices.byteOffset.getD 0, sp.count * WEBGL_TYPE_SIZES "SCALAR"⟩ with hindTA
set valuesTA : TA := ⟨acc.componentType, sp.values.bufferView,
  sp.values.byteOffset.getD 0, sp.count * is⟩ with hvalTA
set hcopy := (taSlice st.heap baseTA).1 with hhcopy
have hcopy2 : (taSlice st.heap baseTA).2 = copyTA := rfl
have h1 : (i + 1) * is ≤ acc.count * is := Nat.mul_le_mul_right is hi
have hflt : i * is + c < acc.count * is := by nlinarith
have hA1 : indicesTA.bufId ≠ copyTA.bufId := by
  simp only [hindTA, hcopyTA]
  omega
have hA2 : copyTA.bufId < hcopy.length := by
  simp [hcopyTA, hhcopy, taSlice]
have hA3 : copyTA.byteOffset + copyTA.length * componentBytes copyTA.ctype ≤
    (bufGet hcopy copyTA.bufId).length := by
  simp only [hcopyTA, hhcopy, taSlice]
  rw [bufGet_append_self]
  simp
have hA4 : ∀ j, j < sp.count → jsTrunc (taRead hcopy indicesTA j) ≠ (i : Int) := by
  intro j hj
  have hstable : taRead hcopy indicesTA j = taRead st.heap indicesTA j := by
    apply taRead_congr
    exact bufGet_append_lt _ _ _ hind
  rw [hstable]
  intro hcon
  apply hnotin
  unfold sparseIndexList
  rw [← hcon]
  exact List.mem_map_of_mem _ (List.mem_range.mpr hj)
have hinv := winv_sparseWrites ⟨copyTA, is, false⟩ indicesTA valuesTA is (i * is + c) i hcopy
  rfl ⟨c, hc, rfl⟩ hA1 hA2 hA3 sp.count hA4
have hC := hinv.2.2.1
have step1 : taRead (sparseWrites ⟨copyTA, is, false⟩ indicesTA valuesTA is hcopy sp.count)
    copyTA (i * is + c) = taRead hcopy copyTA (i * is + c) :=
  taRead_of_taElemBytes_eq _ _ _ _ hC
have step2 : taRead hcopy copyTA (i * is + c) = taRead st.heap baseTA (i * is + c) := by
  have hsl := taElemBytes_slice st.heap baseTA (i * is + c) (by simpa using hflt)
  rw [hcopy2] at hsl
  unfold taRead
  rw [hhcopy, hsl]
show taRead (sparseWrites ⟨copyTA, is, false⟩ indicesTA valuesTA is hcopy sp.count)
    copyTA (i * is + c) = taRead st.heap baseTA (i * is + c)
rw [step1, step2]

end

/-- Counterexample to C6 as stated: for an *interleaved* accessor
(`byteStride` 8, tight item size 1) with a sparse block listing only index
0, element 1 also changes (11 instead of 20), because the sparse path
wraps `bufferAttribute.array.slice()` — the whole interleaved slab — in a
dense `BufferAttribute`. -/
theorem loadAccessor_sparse_interleaved_counterexample :
    ((loadAccessor
        ⟨[⟨some 0, none, 5121, 2, "SCALAR", false, some ⟨1, ⟨1, none, 5121⟩, ⟨2, none⟩⟩⟩],
          [⟨some 8⟩, ⟨none⟩, ⟨none⟩]⟩
        ⟨[[10, 11, 12, 13, 14, 15, 16, 17, 20, 21, 22, 23, 24, 25, 26, 27], [0], [99]], []⟩
        0).map (fun r => attrElem r.1.heap r.2 1 0) = some 11) ∧
    ((loadAccessor
        (jsonWithoutSparse
          ⟨[⟨some 0, none, 5121, 2, "SCALAR", false, some ⟨1, ⟨1, none, 5121⟩, ⟨2, none⟩⟩⟩],
            [⟨some 8⟩, ⟨none⟩, ⟨none⟩]⟩ 0)
        ⟨[[10, 11, 12, 13, 14, 15, 16, 17, 20, 21, 22, 23, 24, 25, 26, 27], [0], [99]], []⟩
        0).map (fun r => attrElem r.1.heap r.2 1 0) = some 20) ∧
    ((1 : Int) ∉ sparseIndexList
      ⟨[[10, 11, 12, 13, 14, 15, 16, 17, 20, 21, 22, 23, 24, 25, 26, 27], [0], [99]], []⟩
      ⟨1, ⟨1, none, 5121⟩, ⟨2, none⟩⟩) := by
refine ⟨by decide, by decide, by decide⟩

/-- Witness for C6: the spec's `count = 4` scenario (dense bytes
`[7,8,9,10]`, sparse block overriding index 2 with 99): the theorem
applies, and concretely the two runs decode to `[7,8,99,10]` and
`[7,8,9,10]` — only element 2 differs. -/
theorem loadAccessor_sparse_changes_only_listed_witness :
    (∃ st1 attr1 attr2,
      loadAccessor
        ⟨[⟨some 0, none, 5121, 4, "SCALAR", false, some ⟨1, ⟨1, none, 5121⟩, ⟨2, none⟩⟩⟩],
          [⟨none⟩, ⟨none⟩, ⟨none⟩]⟩
        ⟨[[7, 8, 9, 10], [2], [99]], []⟩ 0 = some (st1, attr1) ∧
      loadAccessor
        (jsonWithoutSparse
          ⟨[⟨some 0, none, 5121, 4, "SCALAR", false, some ⟨1, ⟨1, none, 5121⟩, ⟨2, none⟩⟩⟩],
            [⟨none⟩, ⟨none⟩, ⟨none⟩]⟩ 0)
        ⟨[[7, 8, 9, 10], [2], [99]], []⟩ 0 = some (⟨[[7, 8, 9, 10], [2], [99]], []⟩, attr2) ∧
      attrNormalized attr1 = false ∧
      attrNormalized attr2 = false ∧
      (∀ i : Nat, i < 4 → ((i : Int) ∉ sparseIndexList ⟨[[7, 8, 9, 10], [2], [99]], []⟩
          ⟨1, ⟨1, none, 5121⟩, ⟨2, none⟩⟩) →
        ∀ c, c < WEBGL_TYPE_SIZES "SCALAR" →
          attrElem st1.heap attr1 i c =
            attrElem (⟨[[7, 8, 9, 10], [2], [99]], []⟩ : GState).heap attr2 i c)) ∧
    ((loadAccessor
        ⟨[⟨some 0, none, 5121, 4, "SCALAR", false, some ⟨1, ⟨1, none, 5121⟩, ⟨2, none⟩⟩⟩],
          [⟨none⟩, ⟨none⟩, ⟨none⟩]⟩
        ⟨[[7, 8, 9, 10], [2], [99]], []⟩ 0).map
      (fun r => (List.range 4).map (fun i => attrElem r.1.heap r.2 i 0)) =
        some [7, 8, 99, 10]) ∧
    ((loadAccessor
        (jsonWithoutSparse
          ⟨[⟨some 0, none, 5121, 4, "SCALAR", false, some ⟨1, ⟨1, none, 5121⟩, ⟨2, none⟩⟩⟩],
            [⟨none⟩, ⟨none⟩, ⟨none⟩]⟩ 0)
        ⟨[[7, 8, 9, 10], [2], [99]], []⟩ 0).map
      (fun r => (List.range 4).map (fun i => attrElem r.1.heap r.2 i 0)) =
        some [7, 8, 9, 10]) := by
refine ⟨?_, by decide, by decide⟩
exact loadAccessor_sparse_changes_only_listed
  ⟨[⟨some 0, none, 5121, 4, "SCALAR", false, some ⟨1, ⟨1, none, 5121⟩, ⟨2, none⟩⟩⟩],
    [⟨none⟩, ⟨none⟩, ⟨none⟩]⟩
  ⟨[[7, 8, 9, 10], [2], [99]], []⟩ 0
  ⟨some 0, none, 5121, 4, "SCALAR", false, some ⟨1, ⟨1, none, 5121⟩, ⟨2, none⟩⟩⟩
  0 ⟨1, ⟨1, none, 5121⟩, ⟨2, none⟩⟩ rfl rfl rfl (by decide) (by decide) (by decide)


section
set_option maxHeartbeats 1600000

theorem loadAccessor_sparse_heap_shape (json : GLTFJson) (st : GState) (ai : Nat)
    (acc : AccessorDef) (bv : Nat) (sp : SparseDef)
    (hacc : json.accessors.get? ai = some acc)
    (hbv : acc.bufferView = some bv)
    (hsp : acc.sparse = some sp)
    (hns : ¬ (5 ≤ WEBGL_TYPE_SIZES acc.type ∧ 0 < sp.count)) :
    ∃ (ba1 : BufferAttribute) (bytes : List Nat)
      (cache1 : List (String × InterleavedBuffer)) (attr1 : Attr),
      loadAccessor json st ai = some
        (⟨sparseWrites ba1
            ⟨sp.indices.componentType, sp.indices.bufferView, sp.indices.byteOffset.getD 0,
              sp.count * WEBGL_TYPE_SIZES "SCALAR"⟩
            ⟨acc.componentType, sp.values.bufferView, sp.values.byteOffset.getD 0,
              sp.count * WEBGL_TYPE_SIZES acc.type⟩
            (WEBGL_TYPE_SIZES acc.type)
            (st.heap ++ [bytes]) sp.count, cache1⟩, attr1) ∧
      ba1.array.bufId = st.heap.length := by
unfold loadAccessor
rw [hacc]
simp only [hbv, hsp]
rw [if_neg (by simp)]
rw [if_neg hns]
rw [if_pos (Option.some_ne_none bv)]
split
· split
  · refine ⟨_, _, _, _, rfl, ?_⟩
    rfl
  · refine ⟨_, _, _, _, rfl, ?_⟩
    rfl
· refine ⟨_, _, _, _, rfl, ?_⟩
  rfl

end

/-- **C10.** When `loadAccessor` applies a sparse overlay to a
bufferView-backed accessor, the overlay writes go to the `.slice()` copy:
every previously resolved buffer (in particular the shared bufferView
buffer) is byte-identical after the call, and any typed-array view into a
pre-existing buffer — hence any other accessor decoded from the same
bufferView — reads exactly the same values as before. -/
theorem loadAccessor_sparse_preserves_buffers
    (json : GLTFJson) (st : GState) (ai : Nat) (acc : AccessorDef) (bv : Nat) (sp : SparseDef)
    (st1 : GState) (attr1 : Attr)
    (hacc : json.accessors.get? ai = some acc)
    (hbv : acc.bufferView = some bv)
    (hsp : acc.sparse = some sp)
    (hrun : loadAccessor json st ai = some (st1, attr1)) :
    (∀ j, j < st.heap.length → bufGet st1.heap j = bufGet st.heap j) ∧
    (∀ ta : TA, ta.bufId < st.heap.length → ∀ i, taRead st1.heap ta i = taRead st.heap ta i) := by
have hns : ¬ (5 ≤ WEBGL_TYPE_SIZES acc.type ∧ 0 < sp.count) := by
  intro hcon
  unfold loadAccessor at hrun
  rw [hacc] at hrun
  simp only [hbv, hsp] at hrun
  rw [if_neg (by simp)] at hrun
  rw [if_pos hcon] at hrun
  exact Option.noConfusion hrun
obtain ⟨ba1, bytes, cache1, attr1', hload, hbid⟩ :=
  loadAccessor_sparse_heap_shape json st ai acc bv sp hacc hbv hsp hns
rw [hload] at hrun
simp only [Option.some.injEq, Prod.mk.injEq] at hrun
obtain ⟨hst, -⟩ := hrun
have hmain : ∀ j, j < st.heap.length → bufGet st1.heap j = bufGet st.heap j := by
  intro j hj
  rw [← hst]
  show bufGet (sparseWrites ba1 _ _ _ (st.heap ++ [bytes]) sp.count) j = bufGet st.heap j
  rw [bufGet_sparseWrites_ne ba1 _ _ _ j (by rw [hbid]; omega) sp.count _]
  exact bufGet_append_lt _ _ _ hj
exact ⟨hmain, fun ta hta i => taRead_congr _ _ _ (hmain ta.bufId hta) i⟩

/-- Witness for C10: in the spec's sparse scenario the pre-existing
buffers (the dense bufferView bytes `[7,8,9,10]`, the sparse index and
value buffers) are unchanged by the overlay, and any view into them reads
the same values before and after. -/
theorem loadAccessor_sparse_preserves_buffers_witness :
    ∃ st1 attr1,
      loadAccessor
        ⟨[⟨some 0, none, 5121, 4, "SCALAR", false, some ⟨1, ⟨1, none, 5121⟩, ⟨2, none⟩⟩⟩],
          [⟨none⟩, ⟨none⟩, ⟨none⟩]⟩
        ⟨[[7, 8, 9, 10], [2], [99]], []⟩ 0 = some (st1, attr1) ∧
      (∀ j, j < 3 → bufGet st1.heap j =
        bufGet (⟨[[7, 8, 9, 10], [2], [99]], []⟩ : GState).heap j) ∧
      (∀ ta : TA, ta.bufId < 3 → ∀ i, taRead st1.heap ta i =
        taRead (⟨[[7, 8, 9, 10], [2], [99]], []⟩ : GState).heap ta i) := by
cases hres : loadAccessor
    ⟨[⟨some 0, none, 5121, 4, "SCALAR", false, some ⟨1, ⟨1, none, 5121⟩, ⟨2, none⟩⟩⟩],
      [⟨none⟩, ⟨none⟩, ⟨none⟩]⟩
    ⟨[[7, 8, 9, 10], [2], [99]], []⟩ 0 with
| none => exact absurd hres (by decide)
| some r =>
  obtain ⟨s1, a1⟩ := r
  have hkey := loadAccessor_sparse_preserves_buffers
    ⟨[⟨some 0, none, 5121, 4, "SCALAR", false, some ⟨1, ⟨1, none, 5121⟩, ⟨2, none⟩⟩⟩],
      [⟨none⟩, ⟨none⟩, ⟨none⟩]⟩
    ⟨[[7, 8, 9, 10], [2], [99]], []⟩ 0
    ⟨some 0, none, 5121, 4, "SCALAR", false, some ⟨1, ⟨1, none, 5121⟩, ⟨2, none⟩⟩⟩
    0 ⟨1, ⟨1, none, 5121⟩, ⟨2, none⟩⟩ s1 a1 rfl rfl rfl hres
  exact ⟨s1, a1, rfl, hkey.1, hkey.2⟩

end GLTFAccessor

/-! ## C3 — FBX rotation tracks: Euler unrolling, pre/post rotation, quaternion continuity

Shallow embedding of `AnimationParser.interpolateRotations` and
`AnimationParser.generateRotationTrack` (src/unnamed/part_006).  Curve
data is embedded over `ℝ` (the float arithmetic idealized as exact real
arithmetic); the three.js math primitives (`MathUtils.degToRad`,
`Quaternion.setFromEuler` / `multiply` / `premultiply` / `invert` /
`dot` / `slerp` / `normalize`, `Euler.setFromQuaternion`) are an external
library, not part of this repository, and are modelled from the spec
below.  `ℝ` has no NaN, so the parser's `isNaN` guards are embedded as
constantly-false tests (NaN curve samples are outside this embedding),
and JS out-of-range array reads are embedded as defaulted reads. -/

namespace FBXRot

/-- One per-axis FBX animation curve: keyframe times with values. -/
structure Curve where
times : List ℝ
values : List ℝ

/-- three.js intrinsic Euler orders. -/
inductive EOrd
| XYZ
| YXZ
| ZXY
| ZYX
| YZX
| XZY
deriving DecidableEq, Repr

/-- `getEulerOrder` (src/src/loaders/fbx/parse/utils.ts): maps the FBX
extrinsic order enum to the three.js intrinsic order string
(`FBXEulerOrder[0] = 'ZYX'`, …; the unsupported `SphericXYZ = 6` falls
back to `FBXEulerOrder[0]`). -/
def getEulerOrder (order : Nat) : EOrd :=
match order with
| 0 => EOrd.ZYX
| 1 => EOrd.YZX
| 2 => EOrd.XZY
| 3 => EOrd.ZXY
| 4 => EOrd.YXZ
| 5 => EOrd.XYZ
| _ => EOrd.ZYX

/-- `getEulerOrder(0)` — the order used for pre/post rotations. -/
def defaultEulerOrder : EOrd := getEulerOrder 0

/-- Modelled from the spec: `MathUtils.degToRad` — degrees to radians. -/
noncomputable def degToRad (d : ℝ) : ℝ := d * (Real.pi / 180)

/-- ℝ has no NaN value, so the `isNaN` guards of the source are
constantly false in this embedding. -/
def jsIsNaN (x : ℝ) : Bool := false

/-- A quaternion, components as in three.js. -/
structure Quat where
x : ℝ
y : ℝ
z : ℝ
w : ℝ

/-- Modelled from the spec: Euler-to-quaternion conversion
(`Quaternion.setFromEuler`) for each intrinsic order, via the products
of half-angle sines/cosines. -/
noncomputable def qSetFromEuler (ex ey ez : ℝ) (ord : EOrd) : Quat :=
let c1 := Real.cos (ex / 2)
let c2 := Real.cos (ey / 2)
let c3 := Real.cos (ez / 2)
let s1 := Real.sin (ex / 2)
let s2 := Real.sin (ey / 2)
let s3 := Real.sin (ez / 2)
match ord with
| EOrd.XYZ =>
  ⟨s1*c2*c3 + c1*s2*s3, c1*s2*c3 - s1*c2*s3, c1*c2*s3 + s1*s2*c3, c1*c2*c3 - s1*s2*s3⟩
| EOrd.YXZ =>
  ⟨s1*c2*c3 + c1*s2*s3, c1*s2*c3 - s1*c2*s3, c1*c2*s3 - s1*s2*c3, c1*c2*c3 + s1*s2*s3⟩
| EOrd.ZXY =>
  ⟨s1*c2*c3 - c1*s2*s3, c1*s2*c3 + s1*c2*s3, c1*c2*s3 + s1*s2*c3, c1*c2*c3 - s1*s2*s3⟩
| EOrd.ZYX =>
  ⟨s1*c2*c3 - c1*s2*s3, c1*s2*c3 + s1*c2*s3, c1*c2*s3 - s1*s2*c3, c1*c2*c3 + s1*s2*s3⟩
| EOrd.YZX =>
  ⟨s1*c2*c3 + c1*s2*s3, c1*s2*c3 + s1*c2*s3, c1*c2*s3 - s1*s2*c3, c1*c2*c3 - s1*s2*s3⟩
| EOrd.XZY =>
  ⟨s1*c2*c3 - c1*s2*s3, c1*s2*c3 - s1*c2*s3, c1*c2*s3 + s1*s2*c3, c1*c2*c3 + s1*s2*s3⟩

/-- Modelled from the spec: the Hamilton product
(`Quaternion.multiplyQuaternions(a, b)`). -/
def qMul (a b : Quat) : Quat :=
⟨a.x * b.w + a.w * b.x + a.y * b.z - a.z * b.y,
 a.y * b.w + a.w * b.y + a.z * b.x - a.x * b.z,
 a.z * b.w + a.w * b.z + a.x * b.y - a.y * b.x,
 a.w * b.w - a.x * b.x - a.y * b.y - a.z * b.z⟩

/-- Modelled from the spec: `Quaternion.dot`. -/
def qDot (a b : Quat) : ℝ := a.x * b.x + a.y * b.y + a.z * b.z + a.w * b.w

/-- Componentwise negation (`quaternion.set(-x, -y, -z, -w)`). -/
def qNeg (a : Quat) : Quat := ⟨-a.x, -a.y, -a.z, -a.w⟩

/-- Modelled from the spec: `Quaternion.invert` — conjugation (inverse
of a unit quaternion). -/
def qConj (a : Quat) : Quat := ⟨-a.x, -a.y, -a.z, a.w⟩

/-- `Number.EPSILON` = 2⁻⁵². -/
noncomputable def jsEpsilon : ℝ := 1 / 2 ^ 52

/-- Modelled from the spec: `Quaternion.normalize` — scale to unit
length, `(0,0,0,1)` for the zero quaternion. -/
noncomputable def qNormalize (q : Quat) : Quat :=
let l := Real.sqrt (qDot q q)
if l = 0 then ⟨0, 0, 0, 1⟩ else ⟨q.x / l, q.y / l, q.z / l, q.w / l⟩

/-- Modelled from the spec: `Math.atan2`. -/
noncomputable def atan2 (y x : ℝ) : ℝ :=
if 0 < x then Real.arctan (y / x)
else if x < 0 then
  (if 0 ≤ y then Real.arctan (y / x) + Real.pi else Real.arctan (y / x) - Real.pi)
else if 0 < y then Real.pi / 2
else if y < 0 then -(Real.pi / 2)
else 0

/-- `MathUtils.clamp(value, min, max)`. -/
noncomputable def clamp (v lo hi : ℝ) : ℝ := max lo (min hi v)

/-- Modelled from the spec: `Quaternion.slerp(qb, t)` — spherical linear
interpolation between the two quaternion endpoints, with the library's
shortest-path flip, degenerate-angle guard and near-parallel linear
fallback. -/
noncomputable def qSlerp (qa qb : Quat) (t : ℝ) : Quat :=
if t = 0 then qa
else if t = 1 then qb
else
  let cosHalfTheta0 := qa.w * qb.w + qa.x * qb.x + qa.y * qb.y + qa.z * qb.z
  let q1 := if cosHalfTheta0 < 0 then qNeg qb else qb
  let cosHalfTheta := if cosHalfTheta0 < 0 then -cosHalfTheta0 else cosHalfTheta0
  if 1 ≤ cosHalfTheta then qa
  else
    let sqrSinHalfTheta := 1 - cosHalfTheta * cosHalfTheta
    if sqrSinHalfTheta ≤ jsEpsilon then
      let s := 1 - t
      qNormalize ⟨s * qa.x + t * q1.x, s * qa.y + t * q1.y,
        s * qa.z + t * q1.z, s * qa.w + t * q1.w⟩
    else
      let sinHalfTheta := Real.sqrt sqrSinHalfTheta
      let halfTheta := atan2 sinHalfTheta cosHalfTheta
      let ratioA := Real.sin ((1 - t) * halfTheta) / sinHalfTheta
      let ratioB := Real.sin (t * halfTheta) / sinHalfTheta
      ⟨qa.x * ratioA + q1.x * ratioB, qa.y * ratioA + q1.y * ratioB,
       qa.z * ratioA + q1.z * ratioB, qa.w * ratioA + q1.w * ratioB⟩

/-- Modelled from the spec: `Euler.setFromQuaternion` — build the
rotation matrix of the quaternion (`Matrix4.makeRotationFromQuaternion`)
and extract the Euler angles for the requested order
(`Euler.setFromRotationMatrix`). -/
noncomputable def eulerFromQuat (q : Quat) (ord : EOrd) : ℝ × ℝ × ℝ :=
let x2 := q.x + q.x
let y2 := q.y + q.y
let z2 := q.z + q.z
let xx := q.x * x2
let xy := q.x * y2
let xz := q.x * z2
let yy := q.y * y2
let yz := q.y * z2
let zz := q.z * z2
let wx := q.w * x2
let wy := q.w * y2
let wz := q.w * z2
let m11 := 1 - (yy + zz)
let m12 := xy - wz
let m13 := xz + wy
let m21 := xy + wz
let m22 := 1 - (xx + zz)
let m23 := yz - wx
let m31 := xz - wy
let m32 := yz + wx
let m33 := 1 - (xx + yy)
match ord with
| EOrd.XYZ =>
  if |m13| < 0.9999999 then (atan2 (-m23) m33, Real.arcsin (clamp m13 (-1) 1), atan2 (-m12) m11)
  else (atan2 m32 m22, Real.arcsin (clamp m13 (-1) 1), 0)
| EOrd.YXZ =>
  if |m23| < 0.9999999 then (Real.arcsin (-(clamp m23 (-1) 1)), atan2 m13 m33, atan2 m21 m22)
  else (Real.arcsin (-(clamp m23 (-1) 1)), atan2 (-m31) m11, 0)
| EOrd.ZXY =>
  if |m32| < 0.9999999 then (Real.arcsin (clamp m32 (-1) 1), atan2 (-m31) m33, atan2 (-m12) m22)
  else (Real.arcsin (clamp m32 (-1) 1), 0, atan2 m21 m11)
| EOrd.ZYX =>
  if |m31| < 0.9999999 then (atan2 m32 m33, Real.arcsin (-(clamp m31 (-1) 1)), atan2 m21 m11)
  else (0, Real.arcsin (-(clamp m31 (-1) 1)), atan2 (-m12) m22)
| EOrd.YZX =>
  if |m21| < 0.9999999 then (atan2 (-m23) m22, atan2 (-m31) m11, Real.arcsin (clamp m21 (-1) 1))
  else (0, atan2 m13 m33, Real.arcsin (clamp m21 (-1) 1))
| EOrd.XZY =>
  if |m12| < 0.9999999 then (atan2 m32 m22, atan2 m13 m11, Real.arcsin (-(clamp m12 (-1) 1)))
  else (atan2 (-m23) m33, 0, Real.arcsin (-(clamp m12 (-1) 1)))

/-- JS array read `l[i]` (out-of-range reads default to 0 in this
embedding; the source would produce NaN, which ℝ lacks). -/
def curveAt (l : List ℝ) (i : Nat) : ℝ := l.getD i 0

/-- `Math.max(...absoluteSpan)` over the three axis spans. -/
noncomputable def maxAbsSpan3 (a b c : ℝ) : ℝ := max (max a b) c

/-- The largest absolute per-axis degree change between keyframes `i-1`
and `i` (`maxAbsSpan` of the source's span branch). -/
noncomputable def maxSpanAt (cx cy cz : Curve) (i : Nat) : ℝ :=
maxAbsSpan3 |curveAt cx.values i - curveAt cx.values (i - 1)|
  |curveAt cy.values i - curveAt cy.values (i - 1)|
  |curveAt cz.values i - curveAt cz.values (i - 1)|

theorem stepPos {a b c : ℝ} (h : 180 ≤ a ∨ 180 ≤ b ∨ 180 ≤ c) :
    0 < 1 / (maxAbsSpan3 a b c / 180) := by
have hm : (180:ℝ) ≤ maxAbsSpan3 a b c := by
  unfold maxAbsSpan3
  rcases h with h | h | h
  · exact le_trans h (le_trans (le_max_left a b) (le_max_left _ c))
  · exact le_trans h (le_trans (le_max_right a b) (le_max_left _ c))
  · exact le_trans h (le_max_right _ c)
positivity

/-- The body of the source's subdivision loop
`for (let t = 0; t < 1; t += 1 / numSubIntervals)`: push the sample time
`initialTime + t * timeSpan` and the Euler angles of the slerped
quaternion, then advance `t` by `step`.  The loop terminates only
because the step is positive, which the enclosing branch guarantees
(`maxAbsSpan ≥ 180`); the positivity proof is threaded as an
argument. -/
noncomputable def slerpLoop (Q1 Q2 : Quat) (ord : EOrd) (initialTime timeSpan step : ℝ)
    (hstep : 0 < step) (t : ℝ) : List ℝ × List ℝ :=
if h : t < 1 then
  let Q := qSlerp Q1 Q2 t
  let E := eulerFromQuat Q ord
  let rest := slerpLoop Q1 Q2 ord initialTime timeSpan step hstep (t + step)
  ((initialTime + t * timeSpan) :: rest.1, E.1 :: E.2.1 :: E.2.2 :: rest.2)
else ([], [])
termination_by (⌈(1 - t) / step⌉).toNat
decreasing_by
have h1 : (1 - (t + step)) / step = (1 - t) / step - 1 := by
  field_simp
  ring
rw [h1, Int.ceil_sub_one]
have h2 : 0 < ⌈(1 - t) / step⌉ := Int.ceil_pos.mpr (div_pos (by linarith) hstep)
omega

/-- One iteration `i` of the `interpolateRotations` keyframe walk: skip
on NaN (dead over ℝ), else either subdivide the interval (span ≥ 180° on
some axis) with slerped samples, or push the keyframe itself.  Returns
the (times, values) pushed by this iteration. -/
noncomputable def interpStep (cx cy cz : Curve) (ord : EOrd) (i : Nat) : List ℝ × List ℝ :=
let iv1 := curveAt cx.values (i - 1)
let iv2 := curveAt cy.values (i - 1)
let iv3 := curveAt cz.values (i - 1)
if jsIsNaN iv1 || jsIsNaN iv2 || jsIsNaN iv3 then ([], [])
else
  let ivr1 := degToRad iv1
  let ivr2 := degToRad iv2
  let ivr3 := degToRad iv3
  let cv1 := curveAt cx.values i
  let cv2 := curveAt cy.values i
  let cv3 := curveAt cz.values i
  if jsIsNaN cv1 || jsIsNaN cv2 || jsIsNaN cv3 then ([], [])
  else
    let cvr1 := degToRad cv1
    let cvr2 := degToRad cv2
    let cvr3 := degToRad cv3
    if h : 180 ≤ |cv1 - iv1| ∨ 180 ≤ |cv2 - iv2| ∨ 180 ≤ |cv3 - iv3| then
      let maxAbsSpan := maxAbsSpan3 |cv1 - iv1| |cv2 - iv2| |cv3 - iv3|
      let numSubIntervals := maxAbsSpan / 180
      let Q1 := qSetFromEuler ivr1 ivr2 ivr3 ord
      let Q2 := qSetFromEuler cvr1 cvr2 cvr3 ord
      let Q2f := if qDot Q1 Q2 ≠ 0 then qNeg Q2 else Q2
      let initialTime := curveAt cx.times (i - 1)
      let timeSpan := curveAt cx.times i - initialTime
      slerpLoop Q1 Q2f ord initialTime timeSpan (1 / numSubIntervals) (stepPos h) 0
    else
      ([curveAt cx.times i], [cvr1, cvr2, cvr3])

/-- `AnimationParser.interpolateRotations`: push the first keyframe
(converted to radians), then walk consecutive keyframe pairs, appending
each iteration's pushes. -/
noncomputable def interpolateRotations (cx cy cz : Curve) (ord : EOrd) : List ℝ × List ℝ :=
let t0 := curveAt cx.times 0
let v0 := [degToRad (curveAt cx.values 0), degToRad (curveAt cy.values 0),
  degToRad (curveAt cz.values 0)]
let steps := (List.range' 1 (cx.values.length - 1)).map (interpStep cx cy cz ord)
(t0 :: (steps.map Prod.fst).flatten, v0 ++ (steps.map Prod.snd).flatten)

/-- `new Quaternion().fromArray(arr, offset)`. -/
def quatFromArray (l : List ℝ) (off : Nat) : Quat :=
⟨l.getD off 0, l.getD (off + 1) 0, l.getD (off + 2) 0, l.getD (off + 3) 0⟩

/-- The quaternion-conversion loop of `generateRotationTrack`
(`for (let i = 0; i < values.length; i += 3)`), carrying the output
array `acc` (`quaternionValues`) because the unroll check reads the
previously written quaternion back out of it.  Euler triples are always
complete here (`interpolateRotations` pushes values three at a time). -/
noncomputable def rotTrackGo (preQ postInvQ : Quat) (ord : EOrd) :
    Nat → List ℝ → List ℝ → List ℝ
| i, acc, vx :: vy :: vz :: rest =>
  let q0 := qSetFromEuler vx vy vz ord
  let q1 := qMul preQ q0
  let q2 := qMul q1 postInvQ
  let q3 :=
    if 2 < i then
      (let prevQuat := quatFromArray acc (((i - 3) / 3) * 4)
       if qDot prevQuat q2 < 0 then qNeg q2 else q2)
    else q2
  rotTrackGo preQ postInvQ ord (i + 3) (acc ++ [q3.x, q3.y, q3.z, q3.w]) rest
| _, acc, _ => acc

/-- The pre-rotation quaternion: degrees to radians, Euler in the
default order, converted to a quaternion. -/
noncomputable def preQuatOf (pre : ℝ × ℝ × ℝ) : Quat :=
qSetFromEuler (degToRad pre.1) (degToRad pre.2.1) (degToRad pre.2.2) defaultEulerOrder

/-- The inverted post-rotation quaternion. -/
noncomputable def postInvQuatOf (post : ℝ × ℝ × ℝ) : Quat :=
qConj (qSetFromEuler (degToRad post.1) (degToRad post.2.1) (degToRad post.2.2) defaultEulerOrder)

/-- `AnimationParser.generateRotationTrack`: interpolate the three axis
curves when all are present (otherwise the source returns the degenerate
`([0], [0])` track), build the pre/post rotation quaternions, and run
the conversion loop.  Returns the track's (times, quaternion values). -/
noncomputable def generateRotationTrack (ocx ocy ocz : Option Curve) (pre post : ℝ × ℝ × ℝ)
    (ord : EOrd) : List ℝ × List ℝ :=
match ocx, ocy, ocz with
| some cx, some cy, some cz =>
  let r := interpolateRotations cx cy cz ord
  (r.1, rotTrackGo (preQuatOf pre) (postInvQuatOf post) ord 0 [] r.2)
| _, _, _ => ([0], [0])

theorem slerpLoop_cons (Q1 Q2 : Quat) (ord : EOrd) (iT dT step : ℝ) (hstep : 0 < step)
    (t : ℝ) (hlt : t < 1) :
    (slerpLoop Q1 Q2 ord iT dT step hstep t).1 =
      (iT + t * dT) :: (slerpLoop Q1 Q2 ord iT dT step hstep (t + step)).1 := by
rw [slerpLoop, dif_pos hlt]

theorem slerpLoop_nil (Q1 Q2 : Quat) (ord : EOrd) (iT dT step : ℝ) (hstep : 0 < step)
    (t : ℝ) (hge : ¬ t < 1) :
    (slerpLoop Q1 Q2 ord iT dT step hstep t).1 = [] := by
rw [slerpLoop, dif_neg hge]

theorem slerpLoop_times (Q1 Q2 : Quat) (ord : EOrd) (iT dT step : ℝ) (hstep : 0 < step) :
    ∀ (n : Nat) (t : ℝ), (⌈(1 - t) / step⌉).toNat ≤ n →
      (slerpLoop Q1 Q2 ord iT dT step hstep t).1 =
        (List.range (⌈(1 - t) / step⌉).toNat).map
          (fun k : Nat => iT + (t + (k : ℝ) * step) * dT) := by
intro n
induction n with
| zero =>
  intro t ht
  have hnlt : ¬ t < 1 := by
    intro hlt
    have hp : 0 < ⌈(1 - t) / step⌉ := Int.ceil_pos.mpr (div_pos (by linarith) hstep)
    omega
  rw [slerpLoop_nil _ _ _ _ _ _ _ _ hnlt, Nat.le_zero.mp ht]
  rfl
| succ n ih =>
  intro t ht
  by_cases hlt : t < 1
  · have hp : 0 < ⌈(1 - t) / step⌉ := Int.ceil_pos.mpr (div_pos (by linarith) hstep)
    have hrec : (⌈(1 - (t + step)) / step⌉) = ⌈(1 - t) / step⌉ - 1 := by
      have h1 : (1 - (t + step)) / step = (1 - t) / step - 1 := by
        field_simp
        ring
      rw [h1, Int.ceil_sub_one]
    rw [slerpLoop_cons _ _ _ _ _ _ _ _ hlt]
    rw [ih (t + step) (by rw [hrec]; omega)]
    have hm : (⌈(1 - t) / step⌉).toNat = (⌈(1 - (t + step)) / step⌉).toNat + 1 := by
      rw [hrec]
      omega
    rw [hm, List.range_succ_eq_map, List.map_cons, List.map_map]
    congr 1
    · push_cast
      ring
    · apply List.map_congr_left
      intro k _
      simp only [Function.comp]
      push_cast
      ring
  · rw [slerpLoop_nil _ _ _ _ _ _ _ _ hlt]
    have h0 : (⌈(1 - t) / step⌉).toNat = 0 := by
      have hc : ⌈(1 - t) / step⌉ ≤ 0 := by
        rw [Int.ceil_le]
        push_cast
        rw [div_nonpos_iff]
        right
        constructor <;> linarith
      omega
    rw [h0]
    rfl

/-- Group a flat value list into Euler triples (the conversion loop's
reads at `i`, `i+1`, `i+2`). -/
def tripleList : List ℝ → List (ℝ × ℝ × ℝ)
| a :: b :: c :: r => (a, b, c) :: tripleList r
| _ => []

/-- Flatten quaternions to the flat `[x, y, z, w, …]` layout of
`quaternion.toArray(quaternionValues, offset)`. -/
def flatQuats : List Quat → List ℝ
| [] => []
| q :: r => q.x :: q.y :: q.z :: q.w :: flatQuats r

/-- The quaternion the conversion loop computes for one Euler sample
before the unroll check: pre-rotation premultiplied, inverted
post-rotation postmultiplied. -/
noncomputable def rawQuat (preQ postInvQ : Quat) (ord : EOrd) (v : ℝ × ℝ × ℝ) : Quat :=
qMul (qMul preQ (qSetFromEuler v.1 v.2.1 v.2.2 ord)) postInvQ

/-- Specification-side rendering of the conversion loop: each sample's
raw quaternion, sign-flipped when its dot product with the previously
emitted quaternion is negative. -/
noncomputable def chainQuats (preQ postInvQ : Quat) (ord : EOrd) :
    Option Quat → List (ℝ × ℝ × ℝ) → List Quat
| _, [] => []
| prev, v :: rest =>
  let raw := rawQuat preQ postInvQ ord v
  let q := match prev with
    | none => raw
    | some p => if qDot p raw < 0 then qNeg raw else raw
  q :: chainQuats preQ postInvQ ord (some q) rest

theorem flatQuats_append (l1 l2 : List Quat) :
    flatQuats (l1 ++ l2) = flatQuats l1 ++ flatQuats l2 := by
induction l1 with
| nil => rfl
| cons q r ih =>
  rw [List.cons_append]
  show q.x :: q.y :: q.z :: q.w :: flatQuats (r ++ l2) = _
  rw [ih]
  rfl

theorem flatQuats_length (l : List Quat) : (flatQuats l).length = 4 * l.length := by
induction l with
| nil => rfl
| cons q r ih =>
  show (q.x :: q.y :: q.z :: q.w :: flatQuats r).length = _
  simp only [List.length_cons, ih, List.length_cons]
  ring

theorem quatFromArray_flatQuats (d : Quat) :
    ∀ (qs : List Quat) (k : Nat), k < qs.length →
      quatFromArray (flatQuats qs) (4 * k) = qs.getD k d := by
intro qs
induction qs with
| nil =>
  intro k hk
  simp at hk
| cons q r ih =>
  intro k hk
  cases k with
  | zero => rfl
  | succ k =>
    have hstep : quatFromArray (flatQuats (q :: r)) (4 * (k + 1)) =
        quatFromArray (flatQuats r) (4 * k) := rfl
    rw [hstep, ih k (by simpa using Nat.lt_of_succ_lt_succ hk)]
    rfl

/-- The conversion loop, started after `qs` quaternions have been
written, appends exactly the sign-disciplined chain of the remaining
Euler triples. -/
theorem rotTrackGo_char (preQ postInvQ : Quat) (ord : EOrd) :
    ∀ (n : Nat) (l : List ℝ), l.length ≤ n → ∀ (qs : List Quat),
      rotTrackGo preQ postInvQ ord (3 * qs.length) (flatQuats qs) l =
        flatQuats (qs ++ chainQuats preQ postInvQ ord qs.getLast? (tripleList l)) := by
intro n
induction n with
| zero =>
  intro l hl qs
  have hnil : l = [] := List.eq_nil_of_length_eq_zero (Nat.le_zero.mp hl)
  subst hnil
  show flatQuats qs = flatQuats (qs ++ [])
  rw [List.append_nil]
| succ n ih =>
  intro l hl qs
  match l with
  | [] =>
    show flatQuats qs = flatQuats (qs ++ [])
    rw [List.append_nil]
  | [a] =>
    show flatQuats qs = flatQuats (qs ++ [])
    rw [List.append_nil]
  | [a, b] =>
    show flatQuats qs = flatQuats (qs ++ [])
    rw [List.append_nil]
  | a :: b :: c :: r =>
    have hr : r.length ≤ n := by
      have := hl
      simp only [List.length_cons] at this
      omega
    by_cases hqs : qs = []
    · subst hqs
      have h1 : rotTrackGo preQ postInvQ ord (3 * ([] : List Quat).length) (flatQuats [])
          (a :: b :: c :: r) =
          rotTrackGo preQ postInvQ ord (3 * [rawQuat preQ postInvQ ord (a, b, c)].length)
            (flatQuats [rawQuat preQ postInvQ ord (a, b, c)]) r := rfl
      rw [h1, ih r hr [rawQuat preQ postInvQ ord (a, b, c)]]
      rfl
    · have hlen : 1 ≤ qs.length := List.length_pos.mpr hqs
      have hif : 2 < 3 * qs.length := by omega
      have h1 : rotTrackGo preQ postInvQ ord (3 * qs.length) (flatQuats qs)
          (a :: b :: c :: r) =
          (let q3 :=
            if 2 < 3 * qs.length then
              (let prevQuat := quatFromArray (flatQuats qs) (((3 * qs.length - 3) / 3) * 4)
               if qDot prevQuat (rawQuat preQ postInvQ ord (a, b, c)) < 0 then
                 qNeg (rawQuat preQ postInvQ ord (a, b, c))
               else rawQuat preQ postInvQ ord (a, b, c))
            else rawQuat preQ postInvQ ord (a, b, c)
           rotTrackGo preQ postInvQ ord (3 * qs.length + 3)
             (flatQuats qs ++ [q3.x, q3.y, q3.z, q3.w]) r) := rfl
      rw [h1]
      simp only [if_pos hif]
      have hidx : ((3 * qs.length - 3) / 3) * 4 = 4 * (qs.length - 1) := by omega
      rw [hidx, quatFromArray_flatQuats ⟨0, 0, 0, 1⟩ qs (qs.length - 1) (by omega)]
      have hlast : qs.getLast? = some (qs.getD (qs.length - 1) ⟨0, 0, 0, 1⟩) := by
        rw [List.getLast?_eq_getElem?, List.getElem?_eq_getElem (by omega),
          List.getD_eq_getElem?_getD, List.getElem?_eq_getElem (by omega)]
        rfl
      set q3 := if qDot (qs.getD (qs.length - 1) ⟨0, 0, 0, 1⟩)
          (rawQuat preQ postInvQ ord (a, b, c)) < 0 then
          qNeg (rawQuat preQ postInvQ ord (a, b, c))
        else rawQuat preQ postInvQ ord (a, b, c) with hq3
      have h2 : flatQuats qs ++ [q3.x, q3.y, q3.z, q3.w] = flatQuats (qs ++ [q3]) := by
        rw [flatQuats_append]
        rfl
      have h3 : 3 * qs.length + 3 = 3 * (qs ++ [q3]).length := by
        simp [List.length_append]
        ring
      rw [h2, h3, ih r hr (qs ++ [q3])]
      have h4 : (qs ++ [q3]).getLast? = some q3 := by
        simp
      rw [h4]
      show flatQuats ((qs ++ [q3]) ++ chainQuats preQ postInvQ ord (some q3) (tripleList r)) = _
      have h5 : chainQuats preQ postInvQ ord qs.getLast? (tripleList (a :: b :: c :: r)) =
          q3 :: chainQuats preQ postInvQ ord (some q3) (tripleList r) := by
        rw [hlast]
        show (let raw := rawQuat preQ postInvQ ord (a, b, c)
              let q := if qDot (qs.getD (qs.length - 1) ⟨0, 0, 0, 1⟩) raw < 0 then qNeg raw
                else raw
              q :: chainQuats preQ postInvQ ord (some q) (tripleList r)) = _
        rw [hq3]
      rw [h5, List.append_assoc]
      rfl

theorem qDot_qNeg (p r : Quat) : qDot p (qNeg r) = -(qDot p r) := by
unfold qDot qNeg
ring

/-- Properties of the sign-disciplined chain: one quaternion per triple,
each equal to the raw pre/post-multiplied sample up to sign, the first
taken positively when there is no predecessor, and consecutive dot
products (including with the seed) never negative. -/
theorem chainQuats_props (preQ postInvQ : Quat) (ord : EOrd) :
    ∀ (ts : List (ℝ × ℝ × ℝ)) (prev : Option Quat),
      (chainQuats preQ postInvQ ord prev ts).length = ts.length ∧
      (∀ k, k < ts.length →
        (chainQuats preQ postInvQ ord prev ts).getD k ⟨0, 0, 0, 1⟩ =
          rawQuat preQ postInvQ ord (ts.getD k (0, 0, 0)) ∨
        (chainQuats preQ postInvQ ord prev ts).getD k ⟨0, 0, 0, 1⟩ =
          qNeg (rawQuat preQ postInvQ ord (ts.getD k (0, 0, 0)))) ∧
      (prev = none → 0 < ts.length →
        (chainQuats preQ postInvQ ord prev ts).getD 0 ⟨0, 0, 0, 1⟩ =
          rawQuat preQ postInvQ ord (ts.getD 0 (0, 0, 0))) ∧
      (∀ p, prev = some p → 0 < ts.length →
        0 ≤ qDot p ((chainQuats preQ postInvQ ord prev ts).getD 0 ⟨0, 0, 0, 1⟩)) ∧
      (∀ k, k + 1 < ts.length →
        0 ≤ qDot ((chainQuats preQ postInvQ ord prev ts).getD k ⟨0, 0, 0, 1⟩)
          ((chainQuats preQ postInvQ ord prev ts).getD (k + 1) ⟨0, 0, 0, 1⟩)) := by
intro ts
induction ts with
| nil =>
  intro prev
  refine ⟨rfl, ?_, ?_, ?_, ?_⟩
  · intro k hk
    simp at hk
  · intro _ h0
    simp at h0
  · intro p _ h0
    simp at h0
  · intro k hk
    simp at hk
| cons v rest ih =>
  intro prev
  have hq : ∀ q : Quat,
      chainQuats preQ postInvQ ord (some q) (v :: rest) =
        (if qDot q (rawQuat preQ postInvQ ord v) < 0 then
          qNeg (rawQuat preQ postInvQ ord v) else rawQuat preQ postInvQ ord v) ::
        chainQuats preQ postInvQ ord
          (some (if qDot q (rawQuat preQ postInvQ ord v) < 0 then
            qNeg (rawQuat preQ postInvQ ord v) else rawQuat preQ postInvQ ord v)) rest :=
    fun q => rfl
  have hnone : chainQuats preQ postInvQ ord none (v :: rest) =
      rawQuat preQ postInvQ ord v ::
        chainQuats preQ postInvQ ord (some (rawQuat preQ postInvQ ord v)) rest := rfl
  -- the emitted head quaternion, by cases on the seed
  have key : ∀ (q : Quat),
      q = rawQuat preQ postInvQ ord v ∨ q = qNeg (rawQuat preQ postInvQ ord v) →
      ∀ tail, tail = chainQuats preQ postInvQ ord (some q) rest →
      (q :: tail).length = (v :: rest).length ∧
      (∀ k, k < (v :: rest).length →
        (q :: tail).getD k ⟨0, 0, 0, 1⟩ =
          rawQuat preQ postInvQ ord ((v :: rest).getD k (0, 0, 0)) ∨
        (q :: tail).getD k ⟨0, 0, 0, 1⟩ =
          qNeg (rawQuat preQ postInvQ ord ((v :: rest).getD k (0, 0, 0)))) ∧
      (∀ k, k + 1 < (v :: rest).length →
        0 ≤ qDot ((q :: tail).getD k ⟨0, 0, 0, 1⟩)
          ((q :: tail).getD (k + 1) ⟨0, 0, 0, 1⟩)) := by
    intro q hqpm tail htail
    obtain ⟨ihlen, ihpm, _, ihseed, ihcons⟩ := ih (some q)
    refine ⟨?_, ?_, ?_⟩
    · simp only [List.length_cons, htail, ihlen]
    · intro k hk
      cases k with
      | zero => exact hqpm
      | succ k =>
        have hk' : k < rest.length := by
          simp only [List.length_cons] at hk
          omega
        show tail.getD k ⟨0, 0, 0, 1⟩ = _ ∨ tail.getD k ⟨0, 0, 0, 1⟩ = _
        rw [htail]
        exact ihpm k hk'
    · intro k hk
      cases k with
      | zero =>
        show 0 ≤ qDot q (tail.getD 0 ⟨0, 0, 0, 1⟩)
        rw [htail]
        refine ihseed q rfl ?_
        simp only [List.length_cons] at hk
        omega
      | succ k =>
        have hk' : k + 1 < rest.length := by
          simp only [List.length_cons] at hk
          omega
        show 0 ≤ qDot (tail.getD k ⟨0, 0, 0, 1⟩) (tail.getD (k + 1) ⟨0, 0, 0, 1⟩)
        rw [htail]
        exact ihcons k hk'
  cases prev with
  | none =>
    obtain ⟨h1, h2, h3⟩ := key (rawQuat preQ postInvQ ord v) (Or.inl rfl)
      (chainQuats preQ postInvQ ord (some (rawQuat preQ postInvQ ord v)) rest) rfl
    refine ⟨by (rw [hnone]; exact h1), ?_, ?_, ?_, ?_⟩
    · intro k hk
      have := h2 k hk
      rw [hnone]
      exact this
    · intro _ _
      rw [hnone]
      rfl
    · intro p hp
      exact absurd hp (by simp)
    · intro k hk
      have := h3 k hk
      rw [hnone]
      exact this
  | some p =>
    set q := if qDot p (rawQuat preQ postInvQ ord v) < 0 then
        qNeg (rawQuat preQ postInvQ ord v) else rawQuat preQ postInvQ ord v with hqdef
    have hqpm : q = rawQuat preQ postInvQ ord v ∨ q = qNeg (rawQuat preQ postInvQ ord v) := by
      rw [hqdef]
      by_cases hd : qDot p (rawQuat preQ postInvQ ord v) < 0
      · rw [if_pos hd]
        exact Or.inr rfl
      · rw [if_neg hd]
        exact Or.inl rfl
    obtain ⟨h1, h2, h3⟩ := key q hqpm _ rfl
    refine ⟨h1, ?_, ?_, ?_, ?_⟩
    · intro k hk
      exact h2 k hk
    · intro hpn
      exact absurd hpn (by simp)
    · intro p2 hp2 _
      have hp2' : p = p2 := by
        injection hp2
      rw [← hp2']
      show 0 ≤ qDot p q
      rw [hqdef]
      by_cases hd : qDot p (rawQuat preQ postInvQ ord v) < 0
      · rw [if_pos hd, qDot_qNeg]
        linarith
      · rw [if_neg hd]
        linarith
    · intro k hk
      exact h3 k hk

theorem slerpLoop_times0 (Q1 Q2 : Quat) (ord : EOrd) (iT dT step : ℝ) (hstep : 0 < step) :
    (slerpLoop Q1 Q2 ord iT dT step hstep 0).1 =
      (List.range (⌈(1:ℝ) / step⌉).toNat).map
        (fun k : Nat => iT + ((k : ℝ) * step) * dT) := by
rw [slerpLoop_times Q1 Q2 ord iT dT step hstep _ 0 le_rfl]
rw [show (1:ℝ) - 0 = 1 from sub_zero 1]
apply List.map_congr_left
intro k _
rw [zero_add]

/-- **C3.** The FBX rotation-track generator: (a) the track's times are
the first keyframe followed by each keyframe pair's contribution;
(b) a pair whose Euler values differ by ≥ 180° on some axis is
subdivided into `⌈maxAbsSpan/180⌉` slerped substeps (sample times at
`t_{i-1} + k·(180/maxAbsSpan)·Δt`), while other pairs contribute the
keyframe itself; (c) every output quaternion is, up to the unroll sign,
the Euler-converted sample premultiplied by the pre-rotation quaternion
and postmultiplied by the inverted post-rotation quaternion, the first
taken positively, and consecutive output quaternions never have negative
dot product. -/
theorem rotation_track_unrolled
    (cx cy cz : Curve) (pre post : ℝ × ℝ × ℝ) (ord : EOrd)
    (tv : List ℝ × List ℝ)
    (htv : generateRotationTrack (some cx) (some cy) (some cz) pre post ord = tv) :
    tv.1 = curveAt cx.times 0 ::
      (((List.range' 1 (cx.values.length - 1)).map (interpStep cx cy cz ord)).map
        Prod.fst).flatten ∧
    (∀ i, 1 ≤ i →
      ((180 ≤ |curveAt cx.values i - curveAt cx.values (i - 1)| ∨
        180 ≤ |curveAt cy.values i - curveAt cy.values (i - 1)| ∨
        180 ≤ |curveAt cz.values i - curveAt cz.values (i - 1)|) →
        (interpStep cx cy cz ord i).1 =
          (List.range ⌈maxSpanAt cx cy cz i / 180⌉₊).map
            (fun k : Nat => curveAt cx.times (i - 1) +
              ((k : ℝ) * (180 / maxSpanAt cx cy cz i)) *
                (curveAt cx.times i - curveAt cx.times (i - 1)))) ∧
      (¬ (180 ≤ |curveAt cx.values i - curveAt cx.values (i - 1)| ∨
          180 ≤ |curveAt cy.values i - curveAt cy.values (i - 1)| ∨
          180 ≤ |curveAt cz.values i - curveAt cz.values (i - 1)|) →
        (interpStep cx cy cz ord i).1 = [curveAt cx.times i])) ∧
    (∃ qs : List Quat,
      tv.2 = flatQuats qs ∧
      qs.length = (tripleList (interpolateRotations cx cy cz ord).2).length ∧
      (∀ k, k < qs.length →
        qs.getD k ⟨0, 0, 0, 1⟩ = rawQuat (preQuatOf pre) (postInvQuatOf post) ord
          ((tripleList (interpolateRotations cx cy cz ord).2).getD k (0, 0, 0)) ∨
        qs.getD k ⟨0, 0, 0, 1⟩ = qNeg (rawQuat (preQuatOf pre) (postInvQuatOf post) ord
          ((tripleList (interpolateRotations cx cy cz ord).2).getD k (0, 0, 0)))) ∧
      (0 < qs.length →
        qs.getD 0 ⟨0, 0, 0, 1⟩ = rawQuat (preQuatOf pre) (postInvQuatOf post) ord
          ((tripleList (interpolateRotations cx cy cz ord).2).getD 0 (0, 0, 0))) ∧
      (∀ k, k + 1 < qs.length →
        0 ≤ qDot (qs.getD k ⟨0, 0, 0, 1⟩) (qs.getD (k + 1) ⟨0, 0, 0, 1⟩))) := by
refine ⟨?_, ?_, ?_⟩
· rw [← htv]
  rfl
· intro i hi
  constructor
  · intro h180
    have hstep1 : (interpStep cx cy cz ord i).1 =
        (slerpLoop (qSetFromEuler (degToRad (curveAt cx.values (i - 1)))
            (degToRad (curveAt cy.values (i - 1))) (degToRad (curveAt cz.values (i - 1))) ord)
          (if qDot (qSetFromEuler (degToRad (curveAt cx.values (i - 1)))
              (degToRad (curveAt cy.values (i - 1))) (degToRad (curveAt cz.values (i - 1))) ord)
              (qSetFromEuler (degToRad (curveAt cx.values i)) (degToRad (curveAt cy.values i))
                (degToRad (curveAt cz.values i)) ord) ≠ 0 then
            qNeg (qSetFromEuler (degToRad (curveAt cx.values i)) (degToRad (curveAt cy.values i))
              (degToRad (curveAt cz.values i)) ord)
          else qSetFromEuler (degToRad (curveAt cx.values i)) (degToRad (curveAt cy.values i))
            (degToRad (curveAt cz.values i)) ord)
          ord (curveAt cx.times (i - 1)) (curveAt cx.times i - curveAt cx.times (i - 1))
          (1 / (maxSpanAt cx cy cz i / 180)) (stepPos h180) 0).1 := by
      show (dite _ _ _ : List ℝ × List ℝ).1 = _
      rw [dif_pos h180]
      rfl
    rw [hstep1, slerpLoop_times0]
    rw [one_div_one_div, one_div_div]
    rfl
  · intro h180
    show (dite _ _ _ : List ℝ × List ℝ).1 = _
    rw [dif_neg h180]
· have h0 : rotTrackGo (preQuatOf pre) (postInvQuatOf post) ord 0 []
      (interpolateRotations cx cy cz ord).2 =
      flatQuats (chainQuats (preQuatOf pre) (postInvQuatOf post) ord none
        (tripleList (interpolateRotations cx cy cz ord).2)) := by
    have hc := rotTrackGo_char (preQuatOf pre) (postInvQuatOf post) ord
      (interpolateRotations cx cy cz ord).2.length (interpolateRotations cx cy cz ord).2
      le_rfl []
    simpa using hc
  obtain ⟨h1, h2, h3, h4, h5⟩ := chainQuats_props (preQuatOf pre) (postInvQuatOf post) ord
    (tripleList (interpolateRotations cx cy cz ord).2) none
  refine ⟨chainQuats (preQuatOf pre) (postInvQuatOf post) ord none
    (tripleList (interpolateRotations cx cy cz ord).2), ?_, h1, ?_, ?_,
    fun k hk => h5 k (by rw [← h1]; exact hk)⟩
  · rw [← htv]
    exact h0
  · intro k hk
    exact h2 k (by rw [← h1]; exact hk)
  · intro hpos
    exact h3 rfl (by rw [← h1]; exact hpos)

/-- Witness for C3: for keyframes 0° and 190° on the x axis (times 0 and
1), the walked pair is subdivided — the iteration contributes the sample
times `[0, 18/19]`, so a sample is inserted strictly inside the
interval. -/
theorem rotation_track_unrolled_witness :
    (interpStep ⟨[0, 1], [0, 190]⟩ ⟨[0, 1], [0, 0]⟩ ⟨[0, 1], [0, 0]⟩ EOrd.ZYX 1).1 =
      [0, 18 / 19] ∧ (0:ℝ) < 18 / 19 ∧ (18:ℝ) / 19 < 1 := by
have hkey := rotation_track_unrolled ⟨[0, 1], [0, 190]⟩ ⟨[0, 1], [0, 0]⟩ ⟨[0, 1], [0, 0]⟩
  (0, 0, 0) (0, 0, 0) EOrd.ZYX
  (generateRotationTrack (some ⟨[0, 1], [0, 190]⟩) (some ⟨[0, 1], [0, 0]⟩)
    (some ⟨[0, 1], [0, 0]⟩) (0, 0, 0) (0, 0, 0) EOrd.ZYX) rfl
obtain ⟨-, hb, -⟩ := hkey
obtain ⟨hspan, -⟩ := hb 1 le_rfl
have h180 : 180 ≤ |curveAt ([0, 190] : List ℝ) 1 - curveAt ([0, 190] : List ℝ) 0| ∨
    180 ≤ |curveAt ([0, 0] : List ℝ) 1 - curveAt ([0, 0] : List ℝ) 0| ∨
    180 ≤ |curveAt ([0, 0] : List ℝ) 1 - curveAt ([0, 0] : List ℝ) 0| := by
  left
  show (180:ℝ) ≤ |(190:ℝ) - 0|
  rw [sub_zero, abs_of_nonneg (by norm_num : (0:ℝ) ≤ 190)]
  norm_num
have heq := hspan h180
have hms : maxSpanAt ⟨[0, 1], [0, 190]⟩ ⟨[0, 1], [0, 0]⟩ ⟨[0, 1], [0, 0]⟩ 1 = 190 := by
  show maxAbsSpan3 |(190:ℝ) - 0| |(0:ℝ) - 0| |(0:ℝ) - 0| = 190
  rw [sub_zero, sub_zero, abs_of_nonneg (by norm_num : (0:ℝ) ≤ 190), abs_zero]
  unfold maxAbsSpan3
  rw [max_eq_left (by norm_num : (0:ℝ) ≤ 190), max_eq_left (by norm_num : (0:ℝ) ≤ 190)]
rw [hms] at heq
have hceil : ⌈(190:ℝ) / 180⌉₊ = 2 := by
  norm_num [Nat.ceil_eq_iff]
rw [hceil] at heq
refine ⟨?_, by norm_num, by norm_num⟩
rw [heq]
norm_num [List.range_succ, curveAt]

end FBXRot

/-! ## C4 — FBX geometry: n-gon triangulation in genFace

Shallow embedding of the triangulation step of `GeometryParser.genFace`
(src/src/loaders/fbx/parse/FBX-geometry-parser.ts), together with its
helpers `getNormalNewell`, `getNormalTangentAndBitangent` and
`flattenVertex` from the same file.  The three.js `Vector3` primitives
(`cross`, `dot`, `normalize`) and `ShapeUtils.triangulateShape` (earcut)
are an external library, not part of this repository, and are modelled
from the spec. -/

namespace FBXFace

/-- A 3-D vector. -/
def Vec3 : Type := ℝ × ℝ × ℝ

/-- Modelled from the spec: `Vector3.dot`. -/
def v3dot (a b : Vec3) : ℝ := a.1 * b.1 + a.2.1 * b.2.1 + a.2.2 * b.2.2

/-- Modelled from the spec: `Vector3.cross`. -/
def v3cross (a b : Vec3) : Vec3 :=
(a.2.1 * b.2.2 - a.2.2 * b.2.1, a.2.2 * b.1 - a.1 * b.2.2, a.1 * b.2.1 - a.2.1 * b.1)

/-- Modelled from the spec: `Vector3.normalize` — three.js divides by
`length() || 1`, so the zero vector stays zero. -/
noncomputable def v3normalize (a : Vec3) : Vec3 :=
let l := Real.sqrt (v3dot a a)
let d := if l = 0 then 1 else l
(a.1 / d, a.2.1 / d, a.2.2 / d)

/-- `GeometryParser.getNormalNewell`: accumulate Newell's-method normal
over the polygon edges (with wraparound), then normalize. -/
noncomputable def getNormalNewell (vertices : List Vec3) : Vec3 :=
let n := (List.range vertices.length).foldl
  (fun (acc : Vec3) i =>
    let current := vertices.getD i (0, 0, 0)
    let next := vertices.getD ((i + 1) % vertices.length) (0, 0, 0)
    (acc.1 + (current.2.1 - next.2.1) * (current.2.2 + next.2.2),
     acc.2.1 + (current.2.2 - next.2.2) * (current.1 + next.1),
     acc.2.2 + (current.1 - next.1) * (current.2.1 + next.2.1)))
  (0, 0, 0)
v3normalize n

/-- `GeometryParser.getNormalTangentAndBitangent`: an up vector chosen
away from the normal, then orthonormal tangent/bitangent by cross
products. -/
noncomputable def getNormalTangentAndBitangent (vertices : List Vec3) : Vec3 × Vec3 × Vec3 :=
let normalVector := getNormalNewell vertices
let up : Vec3 := if |normalVector.2.2| > 0.5 then (0, 1, 0) else (0, 0, 1)
let tangent := v3normalize (v3cross up normalVector)
let bitangent := v3normalize (v3cross normalVector tangent)
(normalVector, tangent, bitangent)

/-- `GeometryParser.flattenVertex`: project onto the tangent plane. -/
def flattenVertex (vertex normalTangent normalBitangent : Vec3) : ℝ × ℝ :=
(v3dot vertex normalTangent, v3dot vertex normalBitangent)

/-- The vertex-gathering loop of `genFace`: walk `facePositionIndexes`
three at a time and read the coordinates out of `positions`. -/
def buildVertices (positions : List ℝ) : List Nat → List Vec3
| a :: b :: c :: rest =>
  (positions.getD a 0, positions.getD b 0, positions.getD c 0) :: buildVertices positions rest
| _ => []

/-- 2-D cross product of `o→a` and `o→b` (ear convexity test). -/
def cross2 (o a b : ℝ × ℝ) : ℝ :=
(a.1 - o.1) * (b.2 - o.2) - (a.2 - o.2) * (b.1 - o.1)

/-- `p` lies (weakly) inside triangle `a b c`. -/
def inTri (p a b c : ℝ × ℝ) : Prop :=
(0 ≤ cross2 a b p ∧ 0 ≤ cross2 b c p ∧ 0 ≤ cross2 c a p) ∨
(cross2 a b p ≤ 0 ∧ cross2 b c p ≤ 0 ∧ cross2 c a p ≤ 0)

/-- The corner at position `j` (cyclically) of the index polygon is an
ear: convex, and no other remaining vertex lies inside it. -/
def earAt (pts : List (ℝ × ℝ)) (idxs : List Nat) (j : Nat) : Prop :=
let n := idxs.length
let pa := pts.getD (idxs.getD (j % n) 0) (0, 0)
let pb := pts.getD (idxs.getD ((j + 1) % n) 0) (0, 0)
let pc := pts.getD (idxs.getD ((j + 2) % n) 0) (0, 0)
0 < cross2 pa pb pc ∧
∀ k, k < n → k ≠ j % n → k ≠ (j + 1) % n → k ≠ (j + 2) % n →
  ¬ inTri (pts.getD (idxs.getD k 0) (0, 0)) pa pb pc

open Classical in
/-- Position of the first ear corner, 0 when no corner passes the test
(the degenerate fallback still clips a corner each round). -/
noncomputable def findEarPos (pts : List (ℝ × ℝ)) (idxs : List Nat) : Nat :=
match (List.range idxs.length).find? (fun j => decide (earAt pts idxs j)) with
| some j => j
| none => 0

/-- Modelled from the spec: `ShapeUtils.triangulateShape` (earcut) as
ear clipping — repeatedly clip a convex corner containing no other
vertex, removing one polygon vertex per round and emitting its triangle,
until only the final triangle remains.  On the spec's domain (simple
polygon input) an ear always exists; the fallback keeps clipping one
corner per round on inputs outside that domain, where the library
instead may drop degenerate triangles. -/
noncomputable def earLoop (pts : List (ℝ × ℝ)) : List Nat → List (Nat × Nat × Nat)
| idxs =>
  if h3 : idxs.length < 3 then []
  else if heq : idxs.length = 3 then [(idxs.getD 0 0, idxs.getD 1 0, idxs.getD 2 0)]
  else
    let n := idxs.length
    let j := findEarPos pts idxs
    let a := idxs.getD (j % n) 0
    let b := idxs.getD ((j + 1) % n) 0
    let c := idxs.getD ((j + 2) % n) 0
    (a, b, c) :: earLoop pts (idxs.eraseIdx ((j + 1) % n))
termination_by idxs => idxs.length
decreasing_by
have hn : 0 < idxs.length := by omega
have hlt : (findEarPos pts idxs + 1) % idxs.length < idxs.length := Nat.mod_lt _ hn
rw [List.length_eraseIdx_of_lt hlt]
exact Nat.sub_lt (by omega) (by omega)

/-- Modelled from the spec: `ShapeUtils.triangulateShape(points, [])` on
a hole-free contour — triangle index triples into the contour. -/
noncomputable def triangulateShape (pts : List (ℝ × ℝ)) : List (Nat × Nat × Nat) :=
earLoop pts (List.range pts.length)

/-- The triangulation step of `GeometryParser.genFace`: faces longer
than a triangle are projected onto their tangent plane and ear-clipped;
a triangle face is emitted directly as `[[0, 1, 2]]`. -/
noncomputable def genFaceTriangles (positions : List ℝ) (facePositionIndexes : List Nat)
    (faceLength : Nat) : List (Nat × Nat × Nat) :=
if 3 < faceLength then
  let vertices := buildVertices positions facePositionIndexes
  let tb := getNormalTangentAndBitangent vertices
  let triangulationInput := vertices.map (fun v => flattenVertex v tb.2.1 tb.2.2)
  triangulateShape triangulationInput
else [(0, 1, 2)]

theorem earLoop_three (pts : List (ℝ × ℝ)) (idxs : List Nat) (heq : idxs.length = 3) :
    earLoop pts idxs = [(idxs.getD 0 0, idxs.getD 1 0, idxs.getD 2 0)] := by
rw [earLoop]
rw [dif_neg (by omega), dif_pos heq]

theorem earLoop_step (pts : List (ℝ × ℝ)) (idxs : List Nat) (hgt : 3 < idxs.length) :
    earLoop pts idxs =
      (idxs.getD (findEarPos pts idxs % idxs.length) 0,
       idxs.getD ((findEarPos pts idxs + 1) % idxs.length) 0,
       idxs.getD ((findEarPos pts idxs + 2) % idxs.length) 0) ::
      earLoop pts (idxs.eraseIdx ((findEarPos pts idxs + 1) % idxs.length)) := by
rw [earLoop]
rw [dif_neg (by omega), dif_neg (by omega)]

theorem earLoop_length (pts : List (ℝ × ℝ)) :
    ∀ (n : Nat) (idxs : List Nat), idxs.length ≤ n → 3 ≤ idxs.length →
      (earLoop pts idxs).length = idxs.length - 2 := by
intro n
induction n with
| zero =>
  intro idxs hn h3
  omega
| succ n ih =>
  intro idxs hn h3
  by_cases heq : idxs.length = 3
  · rw [earLoop_three pts idxs heq, heq]
    rfl
  · have hgt : 3 < idxs.length := by omega
    have hi : (findEarPos pts idxs + 1) % idxs.length < idxs.length :=
      Nat.mod_lt _ (by omega)
    have hlen : (idxs.eraseIdx ((findEarPos pts idxs + 1) % idxs.length)).length =
        idxs.length - 1 := List.length_eraseIdx_of_lt hi
    rw [earLoop_step pts idxs hgt, List.length_cons,
      ih _ (by rw [hlen]; omega) (by rw [hlen]; omega), hlen]
    omega

theorem mem_eraseIdx_or (l : List Nat) (i : Nat) (hi : i < l.length) (x : Nat) (hx : x ∈ l) :
    x = l.getD i 0 ∨ x ∈ l.eraseIdx i := by
rw [← List.take_append_drop i l, List.drop_eq_getElem_cons hi] at hx
rw [List.mem_append] at hx
rcases hx with hx | hx
· right
  rw [List.eraseIdx_eq_take_drop_succ, List.mem_append]
  exact Or.inl hx
· rw [List.mem_cons] at hx
  rcases hx with hx | hx
  · left
    rw [List.getD_eq_getElem l 0 hi, hx]
  · right
    rw [List.eraseIdx_eq_take_drop_succ, List.mem_append]
    exact Or.inr hx

theorem getD_mem_of_lt (l : List Nat) (i : Nat) (hi : i < l.length) : l.getD i 0 ∈ l := by
rw [List.getD_eq_getElem l 0 hi]
exact List.getElem_mem hi

theorem earLoop_mem_bound (pts : List (ℝ × ℝ)) :
    ∀ (n : Nat) (idxs : List Nat), idxs.length ≤ n →
      ∀ t ∈ earLoop pts idxs, t.1 ∈ idxs ∧ t.2.1 ∈ idxs ∧ t.2.2 ∈ idxs := by
intro n
induction n with
| zero =>
  intro idxs hn t ht
  have h0 : idxs.length < 3 := by omega
  rw [earLoop, dif_pos h0] at ht
  simp at ht
| succ n ih =>
  intro idxs hn t ht
  by_cases hlt : idxs.length < 3
  · rw [earLoop, dif_pos hlt] at ht
    simp at ht
  · by_cases heq : idxs.length = 3
    · rw [earLoop_three pts idxs heq] at ht
      rw [List.mem_singleton] at ht
      subst ht
      refine ⟨getD_mem_of_lt _ _ (by omega), getD_mem_of_lt _ _ (by omega),
        getD_mem_of_lt _ _ (by omega)⟩
    · have hgt : 3 < idxs.length := by omega
      rw [earLoop_step pts idxs hgt, List.mem_cons] at ht
      rcases ht with ht | ht
      · subst ht
        refine ⟨getD_mem_of_lt _ _ (Nat.mod_lt _ (by omega)),
          getD_mem_of_lt _ _ (Nat.mod_lt _ (by omega)),
          getD_mem_of_lt _ _ (Nat.mod_lt _ (by omega))⟩
      · have hi : (findEarPos pts idxs + 1) % idxs.length < idxs.length :=
          Nat.mod_lt _ (by omega)
        have hlen : (idxs.eraseIdx ((findEarPos pts idxs + 1) % idxs.length)).length =
            idxs.length - 1 := List.length_eraseIdx_of_lt hi
        obtain ⟨h1, h2, h3⟩ := ih _ (by rw [hlen]; omega) t ht
        exact ⟨List.eraseIdx_subset _ _ h1, List.eraseIdx_subset _ _ h2,
          List.eraseIdx_subset _ _ h3⟩

theorem earLoop_cover (pts : List (ℝ × ℝ)) :
    ∀ (n : Nat) (idxs : List Nat), idxs.length ≤ n → 3 ≤ idxs.length →
      ∀ x ∈ idxs, ∃ t ∈ earLoop pts idxs, x = t.1 ∨ x = t.2.1 ∨ x = t.2.2 := by
intro n
induction n with
| zero =>
  intro idxs hn h3
  omega
| succ n ih =>
  intro idxs hn h3 x hx
  by_cases heq : idxs.length = 3
  · obtain ⟨k, hk, hkx⟩ := List.mem_iff_getElem.mp hx
    refine ⟨(idxs.getD 0 0, idxs.getD 1 0, idxs.getD 2 0), by
      rw [earLoop_three pts idxs heq]; exact List.mem_singleton.mpr rfl, ?_⟩
    have hk3 : k = 0 ∨ k = 1 ∨ k = 2 := by omega
    rcases hk3 with hk0 | hk1 | hk2
    · subst hk0
      left
      show x = idxs.getD 0 0
      rw [List.getD_eq_getElem idxs 0 (by omega : 0 < idxs.length)]
      exact hkx.symm
    · subst hk1
      right
      left
      show x = idxs.getD 1 0
      rw [List.getD_eq_getElem idxs 0 (by omega : 1 < idxs.length)]
      exact hkx.symm
    · subst hk2
      right
      right
      show x = idxs.getD 2 0
      rw [List.getD_eq_getElem idxs 0 (by omega : 2 < idxs.length)]
      exact hkx.symm
  · have hgt : 3 < idxs.length := by omega
    have hi : (findEarPos pts idxs + 1) % idxs.length < idxs.length :=
      Nat.mod_lt _ (by omega)
    have hlen : (idxs.eraseIdx ((findEarPos pts idxs + 1) % idxs.length)).length =
        idxs.length - 1 := List.length_eraseIdx_of_lt hi
    rcases mem_eraseIdx_or idxs _ hi x hx with hxb | hxrec
    · refine ⟨(idxs.getD (findEarPos pts idxs % idxs.length) 0,
        idxs.getD ((findEarPos pts idxs + 1) % idxs.length) 0,
        idxs.getD ((findEarPos pts idxs + 2) % idxs.length) 0), by
          rw [earLoop_step pts idxs hgt]; exact List.mem_cons_self _ _, ?_⟩
      right
      left
      exact hxb
    · obtain ⟨t, htmem, hteq⟩ := ih _ (by rw [hlen]; omega) (by rw [hlen]; omega) x hxrec
      refine ⟨t, ?_, hteq⟩
      rw [earLoop_step pts idxs hgt]
      exact List.mem_cons_of_mem _ htmem

theorem buildVertices_length (positions : List ℝ) :
    ∀ (n : Nat) (l : List Nat), l.length ≤ n →
      (buildVertices positions l).length = l.length / 3 := by
intro n
induction n with
| zero =>
  intro l hl
  have h0 : l = [] := List.eq_nil_of_length_eq_zero (Nat.le_zero.mp hl)
  subst h0
  rfl
| succ n ih =>
  intro l hl
  match l with
  | [] => rfl
  | [a] =>
    show ([] : List Vec3).length = 1 / 3
    rfl
  | [a, b] =>
    show ([] : List Vec3).length = 2 / 3
    rfl
  | a :: b :: c :: r =>
    show (buildVertices positions r).length + 1 = (r.length + 3) / 3
    rw [ih r (by simp only [List.length_cons] at hl; omega)]
    omega

/-- **C4.** The triangulation step of `genFace`: every face of
`faceLength ≥ 3` vertices (with its `3·faceLength` position indexes)
produces exactly `faceLength − 2` triangles — via the tangent-plane
projection and ear clipping for n-gons, directly for triangles — and the
triangle corner indices are exactly the face's vertex indices
`0 … faceLength−1`: every corner is in range, and every vertex index is
used by some triangle. -/
theorem genFace_triangulation (positions : List ℝ) (fpi : List Nat) (faceLength : Nat)
    (hlen : fpi.length = 3 * faceLength) (h3 : 3 ≤ faceLength) :
    (genFaceTriangles positions fpi faceLength).length = faceLength - 2 ∧
    (∀ t ∈ genFaceTriangles positions fpi faceLength,
      t.1 < faceLength ∧ t.2.1 < faceLength ∧ t.2.2 < faceLength) ∧
    (∀ j, j < faceLength →
      ∃ t ∈ genFaceTriangles positions fpi faceLength,
        j = t.1 ∨ j = t.2.1 ∨ j = t.2.2) := by
by_cases hgt : 3 < faceLength
· have hvl : (buildVertices positions fpi).length = faceLength := by
    rw [buildVertices_length positions fpi.length fpi le_rfl, hlen]
    omega
  have hg : genFaceTriangles positions fpi faceLength =
      earLoop ((buildVertices positions fpi).map (fun v => flattenVertex v
        (getNormalTangentAndBitangent (buildVertices positions fpi)).2.1
        (getNormalTangentAndBitangent (buildVertices positions fpi)).2.2))
        (List.range ((buildVertices positions fpi).map (fun v => flattenVertex v
          (getNormalTangentAndBitangent (buildVertices positions fpi)).2.1
          (getNormalTangentAndBitangent (buildVertices positions fpi)).2.2)).length) := by
    unfold genFaceTriangles triangulateShape
    rw [if_pos hgt]
  rw [hg]
  generalize hMap : ((buildVertices positions fpi).map (fun v => flattenVertex v
    (getNormalTangentAndBitangent (buildVertices positions fpi)).2.1
    (getNormalTangentAndBitangent (buildVertices positions fpi)).2.2)) = M
  have hil : M.length = faceLength := by
    rw [← hMap, List.length_map]
    exact hvl
  have hrl : (List.range M.length).length = faceLength := by
    rw [List.length_range]
    exact hil
  refine ⟨?_, ?_, ?_⟩
  · rw [earLoop_length _ faceLength _ (by rw [hrl]) (by rw [hrl]; omega), hrl]
  · intro t ht
    obtain ⟨h1, h2, h3'⟩ := earLoop_mem_bound _ faceLength _ (by rw [hrl]) t ht
    have b1 := List.mem_range.mp h1
    have b2 := List.mem_range.mp h2
    have b3 := List.mem_range.mp h3'
    exact ⟨by omega, by omega, by omega⟩
  · intro j hj
    exact earLoop_cover _ faceLength _ (by rw [hrl]) (by rw [hrl]; omega) j
      (List.mem_range.mpr (by omega))
· have hf3 : faceLength = 3 := by omega
  subst hf3
  have hg : genFaceTriangles positions fpi 3 = [(0, 1, 2)] := by
    unfold genFaceTriangles
    rw [if_neg hgt]
  rw [hg]
  refine ⟨rfl, ?_, ?_⟩
  · intro t ht
    rw [List.mem_singleton] at ht
    subst ht
    exact ⟨by decide, by decide, by decide⟩
  · intro j hj
    refine ⟨(0, 1, 2), List.mem_singleton.mpr rfl, ?_⟩
    interval_cases j
    · exact Or.inl rfl
    · exact Or.inr (Or.inl rfl)
    · exact Or.inr (Or.inr rfl)

/-- Witness for C4: a quad face (4 vertices, 12 position indexes) is
triangulated into exactly 2 triangles whose corner indices cover
`{0, 1, 2, 3}`. -/
theorem genFace_triangulation_witness :
    (genFaceTriangles ([0, 0, 0, 1, 0, 0, 1, 1, 0, 0, 1, 0] : List ℝ)
      [0, 1, 2, 3, 4, 5, 6, 7, 8, 9, 10, 11] 4).length = 4 - 2 ∧
    (∀ j, j < 4 →
      ∃ t ∈ genFaceTriangles ([0, 0, 0, 1, 0, 0, 1, 1, 0, 0, 1, 0] : List ℝ)
        [0, 1, 2, 3, 4, 5, 6, 7, 8, 9, 10, 11] 4,
        j = t.1 ∨ j = t.2.1 ∨ j = t.2.2) := by
have hkey := genFace_triangulation ([0, 0, 0, 1, 0, 0, 1, 1, 0, 0, 1, 0] : List ℝ)
  [0, 1, 2, 3, 4, 5, 6, 7, 8, 9, 10, 11] 4 (by decide) (by decide)
exact ⟨hkey.1, hkey.2.2⟩

end FBXFace
